import Mathlib

/-!
Verification of the statement-presentation and corpus-transformation layers
of the INDRA repository.

The development shallowly embeds two source modules:

* `indra/util/statement_presentation.py` (`_get_keyed_stmts`,
  `group_and_sort_statements`, `make_stmt_from_sort_key`), and
* `indra/tools/assemble_corpus.py` (the statement-list filters).

The statement data model itself (`indra.statements`: `Agent`, `Complex`,
`Conversion`, `ActiveForm`, `HasActivity`, modifications, evidence with
epistemics, belief and the supports/supported-by hierarchy) is not part of
the sources under verification; it is modelled from the specification's
data-model section.  All functions taken from the two source modules are
translated directly from their Python code.

Modelling conventions:

* Python ints are `Nat` (all quantities here are counts), Python floats
  that enter comparisons (belief scores, grounding scores, the member sort
  key `count + 1/(1+n_agents)`) are `ℚ`.
* Python `sorted(..., reverse=True)` is modelled by a stable descending
  insertion sort; stability and descending order determine the result
  uniquely, so the choice of algorithm is immaterial.
* Python comparison of heterogeneous sort-key tuples can raise
  `TypeError`; comparison is therefore modelled as a partial function
  returning `Option Ordering`, `none` standing for the raised error, and
  the final group sort returns `none` whenever a performed comparison is
  undefined.
* Python set iteration order (over participant-name sets) is modelled by
  sorted order; the derived key **set** and all accumulated counts are
  independent of that order, and the final sorted output only depends on
  groups through their distinct sort keys.
-/

/-! ## Ordering primitives

Python compares ints, strings (by code point), booleans (as the ints 0/1)
and tuples (lexicographically, a strict prefix being smaller); comparing
values of incompatible kinds raises `TypeError`.  `cmpN`, `cmpS` model the
total int and string comparisons; partial comparisons return
`Option Ordering` with `none` for `TypeError`.
-/

/-- Total comparison of naturals (Python int comparison). -/
def cmpN (a b : Nat) : Ordering := if a < b then .lt else if b < a then .gt else .eq

/-- Comparison of characters by code point, as Python compares strings. -/
def cmpChar (a b : Char) : Ordering := cmpN a.toNat b.toNat

/-- Lexicographic comparison of character lists. -/
def cmpCharL : List Char → List Char → Ordering
  | [], [] => .eq
  | [], _ :: _ => .lt
  | _ :: _, [] => .gt
  | a :: as, b :: bs => match cmpChar a b with
    | .eq => cmpCharL as bs
    | o => o

/-- Total comparison of strings by code points (Python string comparison). -/
def cmpS (a b : String) : Ordering := cmpCharL a.data b.data

/-- Lexicographic comparison of string lists (Python tuple-of-string
comparison, a strict prefix being smaller). -/
def cmpStrL : List String → List String → Ordering
  | [], [] => .eq
  | [], _ :: _ => .lt
  | _ :: _, [] => .gt
  | a :: as, b :: bs => match cmpS a b with
    | .eq => cmpStrL as bs
    | o => o

/-- A scalar entry of a sort key: a Python int (booleans are the ints 0/1)
or a Python string. -/
inductive PAtom where
  | i (n : Nat)
  | s (v : String)
deriving DecidableEq, Repr

/-- One element of the argument tuple of a sort key: a scalar, or a nested
tuple of strings (as produced for Conversion keys). -/
inductive PElem where
  | atom (a : PAtom)
  | tup (l : List String)
deriving DecidableEq, Repr

/-- Partial comparison of scalars: cross-kind comparison (int against
string) raises `TypeError` in Python, modelled as `none`. -/
def cmpAtom : PAtom → PAtom → Option Ordering
  | .i a, .i b => some (cmpN a b)
  | .s a, .s b => some (cmpS a b)
  | _, _ => none

/-- Partial comparison of argument-tuple elements: a scalar against a
nested tuple raises `TypeError` (`none`). -/
def cmpElem : PElem → PElem → Option Ordering
  | .atom a, .atom b => cmpAtom a b
  | .tup a, .tup b => some (cmpStrL a b)
  | _, _ => none

/-- Partial lexicographic comparison of argument tuples; an undefined
element comparison makes the whole comparison undefined, and a strict
prefix is smaller. -/
def cmpInps : List PElem → List PElem → Option Ordering
  | [], [] => some .eq
  | [], _ :: _ => some .lt
  | _ :: _, [] => some .gt
  | x :: xs, y :: ys => match cmpElem x y with
    | none => none
    | some .eq => cmpInps xs ys
    | some o => some o

/-- The sort key produced by `group_and_sort_statements` for one group:
`(arg_count, inps, sub_count, verb)`. -/
abbrev SortKey := Nat × List PElem × Nat × String

instance : DecidableEq SortKey := inferInstance

/-- Partial comparison of full sort keys, layer by layer: the counts and
the verb are always comparable, the argument tuples only partially. -/
def cmpSortKey (k k' : SortKey) : Option Ordering :=
  match cmpN k.1 k'.1 with
  | .eq =>
    match cmpInps k.2.1 k'.2.1 with
    | none => none
    | some .eq =>
      match cmpN k.2.2.1 k'.2.2.1 with
      | .eq => some (cmpS k.2.2.2 k'.2.2.2)
      | o => some o
    | some o => some o
  | o => some o

/-! ## Statement model for the presentation layer

Modelled from the spec: the statement data model of §3/§4.1
(`indra.statements` is not among the sources).  A role filler is an
optional agent name (`none` is Python `None`, printed through the
`'None'` sentinel); the type variants are the symmetric n-ary `Complex`,
the flow `Conversion` with controller and unordered input/output sets,
the attribute-valued unary `ActiveForm`/`HasActivity`, and the default
fixed-role types identified by their class-name verb.  The presentation
layer reads only agent names, the number of roles, the statement's
shallow hash (an opaque `Nat` here) and its evidence count.
-/

/-- A role filler: `none` is an absent agent, `some n` an agent named `n`. -/
abbrev PAgent := Option String

/-- The `name` helper of `_get_keyed_stmts`: `'None' if agent is None else
agent.name`. -/
def pyName : PAgent → String
  | none => "None"
  | some n => n

/-- Statement content by type variant (modelled from the spec, §4.1). -/
inductive PContent where
  | cplx (members : List PAgent)
  | conv (subj : PAgent) (objFrom objTo : List PAgent)
  | activeForm (agent : PAgent) (activity : String) (isActive : Bool)
  | hasActivity (agent : PAgent) (activity : String) (hasAct : Bool)
  | generic (verb : String) (agents : List PAgent)
deriving DecidableEq, Repr

/-- A statement as seen by the presentation layer: content plus its
shallow hash and the length of its evidence list. -/
structure PStmt where
  content : PContent
  shallowHash : Nat
  evCount : Nat
deriving DecidableEq, Repr

/-- The statement's class name, used as the key's verb. -/
def PContent.verb : PContent → String
  | .cplx _ => "Complex"
  | .conv _ _ _ => "Conversion"
  | .activeForm _ _ _ => "ActiveForm"
  | .hasActivity _ _ _ => "HasActivity"
  | .generic v _ => v

/-- The `agent_list()` of a statement. -/
def PStmt.agentList (s : PStmt) : List PAgent :=
  match s.content with
  | .cplx ms => ms
  | .conv subj f t => subj :: (f ++ t)
  | .activeForm a _ _ => [a]
  | .hasActivity a _ _ => [a]
  | .generic _ ags => ags

/-- Well-formedness (Boolean): a default-type statement does not reuse one
of the four specially dispatched class names, and a Complex has no absent
members (the suppression check reads `ag.name` without a `None` guard). -/
def PContent.wfB : PContent → Bool
  | .generic v _ => !(v ∈ ["Complex", "Conversion", "ActiveForm", "HasActivity"])
  | .cplx ms => ms.all (fun a => a ≠ none)
  | _ => true

/-- Insert a string into a code-point-sorted list. -/
def insStr (x : String) : List String → List String
  | [] => [x]
  | y :: ys => if cmpS x y = .lt then x :: y :: ys else y :: insStr x ys

/-- Sort a list of strings ascending by code points. -/
def sortStrs : List String → List String
  | [] => []
  | x :: xs => insStr x (sortStrs xs)

/-- A Python set of strings, modelled as its sorted list of distinct
elements (set iteration order is modelled as sorted order). -/
def sortedDedup (l : List String) : List String := sortStrs l.dedup

/-- All ordered pairs of distinct elements of a duplicate-free list
(`itertools.permutations(s, 2)`). -/
def ordPairs (l : List String) : List (String × String) :=
  l.flatMap (fun a => (l.filter (fun b => b ≠ a)).map (fun b => (a, b)))

/-- Shorthand for a string element of an argument tuple. -/
def strE (x : String) : PElem := .atom (.s x)

/-- A Python bool inside a key (booleans are the ints 0/1). -/
def boolE (b : Bool) : PElem := .atom (.i (if b then 1 else 0))

/-- A grouping key: the verb together with the argument tuple. -/
abbrev GKey := String × List PElem

/-- The keys yielded for one statement by `_get_keyed_stmts`, in yield
order: for a Complex with `1 < n < 6` distinct names all ordered pairwise
keys, plus — except when `n = 2` — the full sorted-tuple key; a single
key for every other type. -/
def keysOf (s : PStmt) : List GKey :=
  match s.content with
  | .cplx ms =>
    let ns := sortedDedup (ms.map pyName)
    let n := ns.length
    let pairKeys : List GKey :=
      if 1 < n ∧ n < 6 then
        (ordPairs ns).map (fun p => ("Complex", [strE p.1, strE p.2]))
      else []
    if n = 2 then pairKeys
    else pairKeys ++ [("Complex", ns.map strE)]
  | .conv subj f t =>
    [("Conversion", [strE (pyName subj),
                     .tup (sortedDedup (f.map pyName)),
                     .tup (sortedDedup (t.map pyName))])]
  | .activeForm a act isAct => [("ActiveForm", [strE (pyName a), strE act, boolE isAct])]
  | .hasActivity a act hasA => [("HasActivity", [strE (pyName a), strE act, boolE hasA])]
  | .generic v ags => [(v, ags.map (fun a => strE (pyName a)))]

/-- The full `(key, statement)` stream of `_get_keyed_stmts`. -/
def keyedStmts (stmts : List PStmt) : List (GKey × PStmt) :=
  stmts.flatMap (fun s => (keysOf s).map (fun k => (k, s)))

/-! ## Aggregation (`group_and_sort_statements`) -/

/-- Association-list lookup. -/
def assocGet {κ β : Type} [DecidableEq κ] : List (κ × β) → κ → Option β
  | [], _ => none
  | (k, v) :: rest, k' => if k = k' then some v else assocGet rest k'

/-- Association-list lookup with a default (`defaultdict` read). -/
def assocGetD {κ β : Type} [DecidableEq κ] (l : List (κ × β)) (k : κ) (d : β) : β :=
  (assocGet l k).getD d

/-- Optional `ev_totals` map: shallow hash to total evidence count. -/
abbrev EvTotals := Option (List (Nat × Nat))

/-- The `_count` closure: the `ev_totals` entry for the statement's shallow
hash when present, else the evidence-list length. -/
def pCount (et : EvTotals) (s : PStmt) : Nat :=
  match et with
  | none => s.evCount
  | some m =>
    match assocGet m s.shallowHash with
    | none => s.evCount
    | some c => c

/-- Append a member to a keyed row (`stmt_rows[key].append(s)`), keeping
dict insertion order; keys stay distinct. -/
def rowsAdd (k : GKey) (s : PStmt) : List (GKey × List PStmt) → List (GKey × List PStmt)
  | [] => [(k, [s])]
  | (k', ss) :: rest => if k' = k then (k', ss ++ [s]) :: rest else (k', ss) :: rowsAdd k s rest

/-- Add to a counter dict (`defaultdict(lambda: 0)`). -/
def cntAdd {κ : Type} [DecidableEq κ] (k : κ) (c : Nat) : List (κ × Nat) → List (κ × Nat)
  | [] => [(k, c)]
  | (k', n) :: rest => if k' = k then (k', n + c) :: rest else (k', n) :: cntAdd k c rest

/-- The accumulator state of the first loop of `group_and_sort_statements`:
`stmt_rows`, `stmt_counts` and `arg_counts`. -/
structure AggState where
  rows : List (GKey × List PStmt)
  stmtCounts : List (GKey × Nat)
  argCounts : List (List PElem × Nat)
deriving Repr

/-- One iteration of the accumulation loop: record the member, add the
statement's count to the key's count, and add it to the argument counts —
for a Conversion key once per `(controller, member)` pair over the
concatenated input and output tuples, otherwise once for the whole
argument tuple. -/
def aggStep (et : EvTotals) (st : AggState) (ks : GKey × PStmt) : AggState :=
  let (k, s) := ks
  let c := pCount et s
  let base : AggState :=
    { rows := rowsAdd k s st.rows
      stmtCounts := cntAdd k c st.stmtCounts
      argCounts := st.argCounts }
  match k with
  | ("Conversion", [PElem.atom (.s subj), PElem.tup f, PElem.tup t]) =>
    { base with argCounts := (f ++ t).foldl (fun ac obj => cntAdd [strE subj, strE obj] c ac) base.argCounts }
  | (_, inps) => { base with argCounts := cntAdd inps c base.argCounts }

/-- The whole accumulation pass over the keyed-statement stream. -/
def aggregate (stmts : List PStmt) (et : EvTotals) : AggState :=
  (keyedStmts stmts).foldl (aggStep et) { rows := [], stmtCounts := [], argCounts := [] }

/-- Accumulated per-key evidence weight (`stmt_counts[key]`). -/
def groupWeight (stmts : List PStmt) (et : EvTotals) (k : GKey) : Nat :=
  assocGetD (aggregate stmts et).stmtCounts k 0

/-- Accumulated cross-type argument weight (`arg_counts[inps]`). -/
def argWeight (stmts : List PStmt) (et : EvTotals) (inps : List PElem) : Nat :=
  assocGetD (aggregate stmts et).argCounts inps 0

/-- The member list of a grouping key (`stmt_rows[key]`). -/
def rowMembers (stmts : List PStmt) (et : EvTotals) (k : GKey) : List PStmt :=
  assocGetD (aggregate stmts et).rows k []

/-- Number of distinct participant names of a statement
(`len(set(ag.name for ag in s.agent_list()))`; for well-formed input no
agent is `None` where this is evaluated). -/
def namesCard (s : PStmt) : Nat := ((s.agentList.map pyName).dedup).length

/-- The member sort key `_count(s) + 1/(1+len(s.agent_list()))`, exact in
`ℚ`. -/
def memberKey (et : EvTotals) (s : PStmt) : ℚ :=
  (pCount et s : ℚ) + 1 / (1 + (s.agentList.length : ℚ))

/-- Numerator of the member sort key written as the single fraction
`(count*(1+n)+1)/(1+n)`. -/
def memberNum (et : EvTotals) (s : PStmt) : Nat :=
  pCount et s * (1 + s.agentList.length) + 1

/-- Denominator of the member sort key as a single fraction. -/
def memberDen (s : PStmt) : Nat := 1 + s.agentList.length

/-- Executable comparison `memberKey et y ≤ memberKey et x`, by
cross-multiplication of the positive denominators (`memberLe_iff` below
proves the equivalence). -/
def memberLe (et : EvTotals) (y x : PStmt) : Bool :=
  memberNum et y * memberDen x ≤ memberNum et x * memberDen y

/-- Stable descending insertion for the member sort: a later element is
placed after every earlier element whose key is not smaller. -/
def insDescQ (et : EvTotals) (x : PStmt) : List PStmt → List PStmt
  | [] => [x]
  | y :: ys => if memberLe et y x then x :: y :: ys else y :: insDescQ et x ys

/-- Stable descending sort of a group's members
(`sorted(stmts, key=..., reverse=True)`). -/
def msortDesc (et : EvTotals) : List PStmt → List PStmt
  | [] => []
  | x :: xs => insDescQ et x (msortDesc et xs)

/-- One group of the output: sort key, verb, sorted member list. -/
abbrev PGroup := SortKey × String × List PStmt

/-- The suppression test of `process_rows`: a Complex group over at most
two arguments whose weight equals its argument weight and all of whose
members have more than two distinct participant names. -/
def suppressed (counts : List (GKey × Nat)) (argCounts : List (List PElem × Nat))
    (k : GKey) (ss : List PStmt) : Bool :=
  k.1 = "Complex" && assocGetD counts k 0 = assocGetD argCounts k.2 0
    && k.2.length ≤ 2 && ss.all (fun s => 2 < namesCard s)

/-- `process_rows`: drop suppressed rows, build each survivor's sort key
`(arg_count, inps, sub_count, verb)` and sort its members. -/
def processRows (et : EvTotals) (st : AggState) : List PGroup :=
  st.rows.filterMap (fun r =>
    if suppressed st.stmtCounts st.argCounts r.1 r.2 then none
    else some ((assocGetD st.argCounts r.1.2 0, r.1.2, assocGetD st.stmtCounts r.1 0, r.1.1),
               r.1.1, msortDesc et r.2))

/-- Stable descending insertion of a group under the partial key
comparison; an undefined comparison aborts the sort (Python `TypeError`). -/
def insG (x : PGroup) : List PGroup → Option (List PGroup)
  | [] => some [x]
  | y :: ys =>
    match cmpSortKey x.1 y.1 with
    | none => none
    | some .lt => (insG x ys).map (fun l => y :: l)
    | some _ => some (x :: y :: ys)

/-- Stable descending sort of the groups (`sorted(..., reverse=True)` on
the sort keys), `none` when a performed comparison is undefined. -/
def psortG : List PGroup → Option (List PGroup)
  | [] => some []
  | x :: xs => (psortG xs).bind (insG x)

/-- `group_and_sort_statements`: aggregate, process rows and sort the
groups; `none` models a `TypeError` escaping from the final sort. -/
def groupAndSortStatements (stmts : List PStmt) (et : EvTotals) : Option (List PGroup) :=
  psortG (processRows et (aggregate stmts et))

/-! ## Key inversion (`make_stmt_from_sort_key`) -/

/-- The `make_agent` helper: the `'None'` sentinel becomes an absent
agent, any other name a placeholder agent of that name. -/
def decodeAgent (n : String) : PAgent := if n = "None" then none else some n

/-- Read a plain string element of a key. -/
def elemStr : PElem → Option String
  | .atom (.s v) => some v
  | _ => none

/-- Read every element of an argument tuple as a string. -/
def elemStrs (l : List PElem) : Option (List String) := l.mapM elemStr

/-- `make_stmt_from_sort_key`: rebuild a representative statement from a
sort key's argument tuple, dispatching on the verb.  Shapes on which the
Python code would fail (non-string entries where names are expected, a
bool slot holding an int other than 0/1) give `none`. -/
def makeStmtFromSortKey (key : SortKey) (verb : String) : Option PStmt :=
  let inps := key.2.1
  if verb = "Complex" then
    (elemStrs inps).map (fun ns => ⟨.cplx (ns.map decodeAgent), 0, 0⟩)
  else if verb = "Conversion" then
    match inps with
    | [PElem.atom (.s subj), PElem.tup f, PElem.tup t] =>
      some ⟨.conv (decodeAgent subj) (f.map decodeAgent) (t.map decodeAgent), 0, 0⟩
    | _ => none
  else if verb = "ActiveForm" then
    match inps with
    | [PElem.atom (.s n), PElem.atom (.s act), PElem.atom (.i b)] =>
      if b ≤ 1 then some ⟨.activeForm (decodeAgent n) act (b = 1), 0, 0⟩ else none
    | _ => none
  else if verb = "HasActivity" then
    match inps with
    | [PElem.atom (.s n), PElem.atom (.s act), PElem.atom (.i b)] =>
      if b ≤ 1 then some ⟨.hasActivity (decodeAgent n) act (b = 1), 0, 0⟩ else none
    | _ => none
  else
    (elemStrs inps).map (fun ns => ⟨.generic verb (ns.map decodeAgent), 0, 0⟩)

/-- The canonical argument tuples of the single-key type variants: those
actually produced by `_get_keyed_stmts` for a default type, a Conversion,
an ActiveForm/HasActivity, or the full-group key of a Complex. -/
def CanonInps (verb : String) (inps : List PElem) : Prop :=
  if verb = "Complex" then
    ∃ ns : List String, inps = ns.map strE ∧ sortedDedup ns = ns ∧ ns.length ≠ 2
  else if verb = "Conversion" then
    ∃ subj f t, inps = [strE subj, .tup f, .tup t] ∧ sortedDedup f = f ∧ sortedDedup t = t
  else if verb = "ActiveForm" ∨ verb = "HasActivity" then
    ∃ n act b, inps = [strE n, strE act, boolE b]
  else
    ∃ ns : List String, inps = ns.map strE

/-! ## Model of the corpus filters (`assemble_corpus`)

The richer statement model used by the filter library.  Modelled from the
spec, §3: concepts carry a name, a grounding map, modification and
activity qualifiers and one level of bound-partner sub-concepts;
evidence carries the recognized epistemics flags; statements carry
belief and supports/supported-by references (each reference is the
referenced statement's identifier together with its belief, the only
fields the filters read through the reference).
-/

/-- A grounding value: a plain identifier, Python `None`, or a ranked
scored candidate list. -/
inductive GroundVal where
  | plain (s : String)
  | noneVal
  | scored (l : List (String × ℚ))
deriving DecidableEq, Repr

/-- Python truthiness of a grounding value. -/
def GroundVal.truthy : GroundVal → Bool
  | .plain s => s ≠ ""
  | .noneVal => false
  | .scored l => l ≠ []

/-- A modification qualifier `(mod_type, residue, position)`. -/
structure ModCond where
  modType : String
  residue : Option String
  position : Option String
deriving DecidableEq, Repr

/-- An activity qualifier. -/
structure ActCond where
  activityType : String
  isActive : Bool
deriving DecidableEq, Repr

/-- A bound-partner sub-concept (one nesting level, per spec §3). -/
structure BAgent where
  name : String
  dbRefs : List (String × GroundVal)
deriving DecidableEq, Repr

/-- A concept filling a statement role. -/
structure CAgent where
  name : String
  dbRefs : List (String × GroundVal)
  mods : List ModCond
  activity : Option ActCond
  boundConditions : List BAgent
deriving DecidableEq, Repr

/-- One evidence record's recognized epistemics flags
(`epistemics.get('hypothesis', False)` / `...get('negated', False)`). -/
structure BEvidence where
  hypothesis : Bool
  negated : Bool
deriving DecidableEq, Repr

/-- Statement content for the filter layer: a modification (with the
effective modification type, i.e. after `modclass_to_modtype` composed
with `modtype_to_inverse` for removals), an activity regulation, or any
other statement with its agent list. -/
inductive BContent where
  | modification (modType : String) (enz : Option CAgent) (sub : CAgent)
      (residue : Option String) (position : Option String)
  | regulateActivity (subj : CAgent) (obj : CAgent) (objActivity : String)
  | other (agents : List (Option CAgent))
deriving DecidableEq, Repr

/-- A statement as seen by the corpus filters. -/
structure BStmt where
  content : BContent
  evidence : List BEvidence
  belief : ℚ
  supports : List (Nat × ℚ)
  supportedBy : List (Nat × ℚ)
deriving DecidableEq, Repr

/-- The `agent_list()` of a filter-layer statement. -/
def agentListB (s : BStmt) : List (Option CAgent) :=
  match s.content with
  | .modification _ enz sub _ _ => [enz, some sub]
  | .regulateActivity subj obj _ => [some subj, some obj]
  | .other ags => ags

/-- Apply a concept transformation to every present agent of a statement. -/
def mapStmtAgents (f : CAgent → CAgent) (s : BStmt) : BStmt :=
  { s with content :=
      match s.content with
      | .modification mt enz sub r p => .modification mt (enz.map f) (f sub) r p
      | .regulateActivity subj obj oa => .regulateActivity (f subj) (f obj) oa
      | .other ags => .other (ags.map (Option.map f)) }

/-! ## The corpus filters -/

/-- `_agent_is_grounded`: a non-`TEXT` namespace entry must exist, at
least one such entry must be truthy, and — when a score threshold is
given — some entry must be a non-empty scored list whose best score
exceeds the threshold.  (Python treats a threshold of `0.0` like `None`;
`some t` models a truthy threshold.) -/
def agentIsGrounded (thr : Option ℚ) (dbRefs : List (String × GroundVal)) : Bool :=
  let entries := dbRefs.filter (fun p => p.1 ≠ "TEXT")
  if entries = [] then false
  else if !(entries.any (fun p => p.2.truthy)) then false
  else
    match thr with
    | none => true
    | some t =>
      entries.any (fun p =>
        match p.2 with
        | .scored [] => false
        | .scored (q :: qs) => decide (t < qs.foldl (fun m r => max m r.2) q.2)
        | _ => false)

/-- `_remove_bound_conditions` with the grounding criterion: keep only
the bound partners that are themselves grounded. -/
def pruneAgentBCs (thr : Option ℚ) (a : CAgent) : CAgent :=
  { a with boundConditions := a.boundConditions.filter (fun b => agentIsGrounded thr b.dbRefs) }

/-- `_any_bound_condition_fails_criterion` with the grounding criterion. -/
def anyBCFails (thr : Option ℚ) (a : CAgent) : Bool :=
  a.boundConditions.any (fun b => !agentIsGrounded thr b.dbRefs)

/-- The per-statement agent loop of `filter_grounded_only`: walk the agent
list, failing at the first ungrounded agent; with `remove_bound` the bound
conditions are (destructively) pruned instead of being checked, without it
a failing bound condition also rejects the statement. -/
def groundedKeep (thr : Option ℚ) (rb : Bool) : List (Option CAgent) → Bool
  | [] => true
  | none :: rest => groundedKeep thr rb rest
  | some a :: rest =>
    if !agentIsGrounded thr a.dbRefs then false
    else if rb then groundedKeep thr rb rest
    else if anyBCFails thr a then false
    else groundedKeep thr rb rest

/-- `filter_grounded_only`: keep the statements accepted by the agent
loop; with `remove_bound` the kept statements' agents have their failing
bound partners pruned. -/
def filterGroundedOnly (thr : Option ℚ) (rb : Bool) (stmts : List BStmt) : List BStmt :=
  stmts.filterMap (fun s =>
    if groundedKeep thr rb (agentListB s) then
      some (if rb then mapStmtAgents (pruneAgentBCs thr) s else s)
    else none)

/-- Prune a supports/supported-by reference list to the entries whose
belief reaches the cutoff. -/
def beliefPrune (c : ℚ) (s : BStmt) : BStmt :=
  { s with supports := s.supports.filter (fun p => decide (c ≤ p.2))
           supportedBy := s.supportedBy.filter (fun p => decide (c ≤ p.2)) }

/-- `filter_belief`, with the post-call state of the input statements made
explicit: the first component is the returned list, the second the state
of each input statement after the call (kept statements have their
supports/supported-by pruned in place, dropped ones are untouched). -/
def filterBeliefFull (c : ℚ) : List BStmt → List BStmt × List BStmt
  | [] => ([], [])
  | s :: rest =>
    let r := filterBeliefFull c rest
    if s.belief < c then (r.1, s :: r.2)
    else (beliefPrune c s :: r.1, beliefPrune c s :: r.2)

/-- The return value of `filter_belief`. -/
def filterBelief (c : ℚ) (stmts : List BStmt) : List BStmt := (filterBeliefFull c stmts).1

/-- The bound-condition keep criterion of `filter_gene_list` with
`remove_bound`: membership of the partner's name in the filter list,
inverted when `invert` is set. -/
def bcKeepGL (gl : List String) (inv : Bool) (b : BAgent) : Bool :=
  if inv then !(gl.contains b.name) else gl.contains b.name

/-- Prune an agent's bound conditions by the gene-list criterion. -/
def pruneGL (gl : List String) (inv : Bool) (a : CAgent) : CAgent :=
  { a with boundConditions := a.boundConditions.filter (bcKeepGL gl inv) }

/-- The names the gene-list policy inspects: the present agents' names,
together with their bound partners' names unless `remove_bound` already
pruned them (`agent_list_with_bound_condition_agents` vs `agent_list`). -/
def glNames (withBC : Bool) (s : BStmt) : List String :=
  (agentListB s).flatMap (fun a? =>
    match a? with
    | none => []
    | some a => a.name :: (if withBC then a.boundConditions.map (fun b => b.name) else []))

/-- `filter_gene_list` (without family expansion), with the post-call
state of the input statements explicit: with `remove_bound` every input
statement's agents are pruned before the policy runs, whatever the policy
decides; an unrecognized policy logs an error and returns the input
statements unchanged (as mutated). -/
def filterGeneListFull (gl : List String) (policy : String) (inv rb : Bool)
    (stmts : List BStmt) : List BStmt × List BStmt :=
  let post := if rb then stmts.map (mapStmtAgents (pruneGL gl inv)) else stmts
  if policy = "one" then
    (post.filter (fun s => ((glNames (!rb) s).any (fun n => gl.contains n)) != inv), post)
  else if policy = "all" then
    (post.filter (fun s => ((glNames (!rb) s).all (fun n => gl.contains n)) != inv), post)
  else (post, post)

/-- The return value of `filter_gene_list`. -/
def filterGeneList (gl : List String) (policy : String) (inv rb : Bool)
    (stmts : List BStmt) : List BStmt :=
  (filterGeneListFull gl policy inv rb stmts).1

/-- The present top-level agent names of a statement. -/
def topNames (s : BStmt) : List String :=
  (agentListB s).filterMap (fun a? => a?.map (fun a => a.name))

/-- `filter_concept_names`: keep by the one/all policy over top-level
agent names, inverted on request; an unrecognized policy logs an error
and returns the input unchanged. -/
def filterConceptNames (names : List String) (policy : String) (inv : Bool)
    (stmts : List BStmt) : List BStmt :=
  if policy = "one" then
    stmts.filter (fun s => ((topNames s).any (fun n => names.contains n)) != inv)
  else if policy = "all" then
    stmts.filter (fun s => ((topNames s).all (fun n => names.contains n)) != inv)
  else stmts

/-- The `meets_criterion` closure of `filter_by_db_refs`: a missing
namespace always fails (before inversion); a scored list stands for its
first entry's identifier; then suffix or exact matching against the value
list, inverted on request.  (An empty scored list or a `None` entry, on
which Python would fail, is treated as no match.) -/
def dbMeets (ns : String) (values : List String) (inv msuf : Bool) (a : CAgent) : Bool :=
  match assocGet a.dbRefs ns with
  | none => false
  | some v =>
    let entry? : Option String :=
      match v with
      | .plain s => some s
      | .scored ((i, _) :: _) => some i
      | _ => none
    match entry? with
    | none => false
    | some entry =>
      let ret := if msuf then values.any (fun e => entry.endsWith e) else values.contains entry
      if inv then !ret else ret

/-- `filter_by_db_refs`: an unrecognized policy logs an error and returns
no value (Python's bare `return`, modelled as `none`); otherwise keep the
statements whose present agents meet the criterion under the one/all
policy. -/
def filterByDbRefs (ns : String) (values : List String) (policy : String)
    (inv msuf : Bool) (stmts : List BStmt) : Option (List BStmt) :=
  if policy ≠ "one" ∧ policy ≠ "all" then none
  else
    let enough (l : List Bool) : Bool := if policy = "all" then l.all id else l.any id
    some (stmts.filter (fun s =>
      enough ((agentListB s).filterMap (fun a? => a?.map (dbMeets ns values inv msuf)))))

/-- The all-hypothesis test of `filter_no_hypothesis`: true only when the
evidence list is non-empty and every record is flagged as a hypothesis. -/
def allHyp (evs : List BEvidence) : Bool :=
  match evs with
  | [] => false
  | _ => evs.all (fun e => e.hypothesis)

/-- `filter_no_hypothesis`. -/
def filterNoHypothesis (stmts : List BStmt) : List BStmt :=
  stmts.filter (fun s => !allHyp s.evidence)

/-- The all-negated test of `filter_no_negated`. -/
def allNeg (evs : List BEvidence) : Bool :=
  match evs with
  | [] => false
  | _ => evs.all (fun e => e.negated)

/-- `filter_no_negated`. -/
def filterNoNegated (stmts : List BStmt) : List BStmt :=
  stmts.filter (fun s => !allNeg s.evidence)

/-- A modification site `(mod_type, residue, position)`. -/
abbrev ModSite := String × Option String × Option String

/-- Append a site under a bearer name in the observed-qualifier index. -/
def idxAdd (name : String) (m : ModSite) : List (String × List ModSite) → List (String × List ModSite)
  | [] => [(name, [m])]
  | (n, ms) :: rest => if n = name then (n, ms ++ [m]) :: rest else (n, ms) :: idxAdd name m rest

/-- The corpus-wide observed-site index of `filter_inconsequential_mods`:
the whitelist extended by every modification qualifier carried by any
agent of any statement of the input. -/
def buildModIdx (wl : List (String × List ModSite)) (stmts : List BStmt) :
    List (String × List ModSite) :=
  stmts.foldl (fun idx s =>
    (agentListB s).foldl (fun idx a? =>
      match a? with
      | none => idx
      | some a => a.mods.foldl (fun idx mc => idxAdd a.name (mc.modType, mc.residue, mc.position) idx) idx)
      idx) wl

/-- `filter_inconsequential_mods`: rebuild the index from the input, then
drop every modification statement whose own site is not observed for its
substrate's name. -/
def filterInconsequentialMods (wl : List (String × List ModSite)) (stmts : List BStmt) :
    List BStmt :=
  let idx := buildModIdx wl stmts
  stmts.filter (fun s =>
    match s.content with
    | .modification mt _ sub r p => (assocGetD idx sub.name []).contains (mt, r, p)
    | _ => true)

/-- Append an activity type under a bearer name. -/
def actIdxAdd (name : String) (m : String) : List (String × List String) → List (String × List String)
  | [] => [(name, [m])]
  | (n, ms) :: rest => if n = name then (n, ms ++ [m]) :: rest else (n, ms) :: actIdxAdd name m rest

/-- The corpus-wide observed-activity index of
`filter_inconsequential_acts`. -/
def buildActIdx (wl : List (String × List String)) (stmts : List BStmt) :
    List (String × List String) :=
  stmts.foldl (fun idx s =>
    (agentListB s).foldl (fun idx a? =>
      match a? with
      | none => idx
      | some a =>
        match a.activity with
        | none => idx
        | some ac => actIdxAdd a.name ac.activityType idx)
      idx) wl

/-- `filter_inconsequential_acts`: rebuild the index from the input, then
drop every activity regulation whose object activity is not observed for
its object's name. -/
def filterInconsequentialActs (wl : List (String × List String)) (stmts : List BStmt) :
    List BStmt :=
  let idx := buildActIdx wl stmts
  stmts.filter (fun s =>
    match s.content with
    | .regulateActivity _ obj oa => (assocGetD idx obj.name []).contains oa
    | _ => true)

/-! ## Derived predicates and concrete inputs used by the theorems -/

/-- The descending order the group sort establishes between two sort
keys: strictly greater under the partial comparison, or equal. -/
def KeyGE (x y : SortKey) : Prop := cmpSortKey x y = some .gt ∨ x = y

/-- Well-formedness of a presentation-layer statement list. -/
def wfStmts (stmts : List PStmt) : Prop := ∀ s ∈ stmts, s.content.wfB = true

/-- A statement has no absent top-level agents (the filters that walk
agents unguarded would fail on Python `None` there). -/
def noNoneAgents (s : BStmt) : Bool := (agentListB s).all (fun a? => a?.isSome)

/-- All present top-level agents of a statement are grounded. -/
def allTopGrounded (thr : Option ℚ) (s : BStmt) : Bool :=
  (agentListB s).all (fun a? =>
    match a? with
    | none => true
    | some a => agentIsGrounded thr a.dbRefs)

/-- A two-member Complex over A and B with two pieces of evidence. -/
def exDirectAB : PStmt := ⟨.cplx [some "A", some "B"], 2, 2⟩

/-- A three-member Complex over A, B and C with five pieces of evidence. -/
def exTripleABC : PStmt := ⟨.cplx [some "A", some "B", some "C"], 3, 5⟩

/-- A two-member Complex over A and B with one piece of evidence. -/
def exDirectAB1 : PStmt := ⟨.cplx [some "A", some "B"], 4, 1⟩

/-- An Activation-type statement between A and B with one evidence. -/
def exActAB : PStmt := ⟨.generic "Activation" [some "A", some "B"], 20, 1⟩

/-- A Phosphorylation-type statement between A and B with one evidence. -/
def exPhosAB : PStmt := ⟨.generic "Phosphorylation" [some "A", some "B"], 21, 1⟩

/-- A Phosphorylation-type statement between X and B without evidence. -/
def exPhosXB : PStmt := ⟨.generic "Phosphorylation" [some "X", some "B"], 10, 0⟩

/-- A Conversion with controller X, input P and output R, no evidence. -/
def exConvXPR : PStmt := ⟨.conv (some "X") [some "P"] [some "R"], 11, 0⟩

/-- A plain agent with the given name, no grounding or qualifiers. -/
def mkAgent (n : String) : CAgent := ⟨n, [], [], none, []⟩

/-- A phosphorylation of B at serine 222 by A. -/
def exM1 : BStmt :=
  ⟨.modification "phosphorylation" (some (mkAgent "A")) (mkAgent "B")
      (some "S") (some "222"), [], 1, [], []⟩

/-- A ubiquitination of E whose enzyme agent B carries the qualifier
phosphorylation-at-S222. -/
def exM2 : BStmt :=
  ⟨.modification "ubiquitination"
      (some ⟨"B", [], [⟨"phosphorylation", some "S", some "222"⟩], none, []⟩)
      (mkAgent "E") none none, [], 1, [], []⟩

/-- A statement with one ungrounded agent (empty grounding map). -/
def exUngrounded : BStmt := ⟨.other [some (mkAgent "Q")], [], 1, [], []⟩

/-- A high-belief statement supported by a low-belief statement. -/
def exHighBelief : BStmt :=
  ⟨.other [some (mkAgent "A")], [], mkRat 9 10, [(2, mkRat 1 10)], []⟩

/-- A statement on agent Q carrying a bound partner Z. -/
def exBoundQZ : BStmt :=
  ⟨.other [some ⟨"Q", [("HGNC", .plain "1")], [], none, [⟨"Z", []⟩]⟩], [], 1, [], []⟩

/-- A minimal statement for exercising the policy filters. -/
def exPlainA : BStmt := ⟨.other [some (mkAgent "A")], [], 1, [], []⟩

/-- A statement with an empty evidence list. -/
def exNoEv : BStmt := ⟨.other [some (mkAgent "A")], [], 1, [], []⟩

/-- An activation of B's kinase activity by A. -/
def exA1 : BStmt :=
  ⟨.regulateActivity (mkAgent "A") (mkAgent "B") "kinase", [], 1, [], []⟩

/-- An activity regulation whose subject agent B carries a kinase
activity qualifier, regulating E's transcription activity. -/
def exA2 : BStmt :=
  ⟨.regulateActivity ⟨"B", [], [], some ⟨"kinase", true⟩, []⟩ (mkAgent "E")
      "transcription", [], 1, [], []⟩

/-! ## Properties of the comparison primitives -/

theorem cmpN_eq_iff {a b : Nat} : cmpN a b = .eq ↔ a = b := by
  unfold cmpN
  split_ifs <;> simp <;> omega

theorem cmpN_lt_iff {a b : Nat} : cmpN a b = .lt ↔ a < b := by
  unfold cmpN
  split_ifs <;> simp <;> omega

theorem cmpN_gt_iff {a b : Nat} : cmpN a b = .gt ↔ b < a := by
  unfold cmpN
  split_ifs <;> simp <;> omega

theorem cmpN_refl (a : Nat) : cmpN a a = .eq := cmpN_eq_iff.mpr rfl

theorem cmpN_swap (a b : Nat) : cmpN b a = (cmpN a b).swap := by
  rcases Nat.lt_trichotomy a b with h | h | h
  · rw [cmpN_lt_iff.mpr h, cmpN_gt_iff.mpr h]; rfl
  · rw [h, cmpN_refl]; rfl
  · rw [cmpN_gt_iff.mpr h, cmpN_lt_iff.mpr h]; rfl

theorem cmpN_gt_trans {a b c : Nat} (h1 : cmpN a b = .gt) (h2 : cmpN b c = .gt) :
    cmpN a c = .gt :=
  cmpN_gt_iff.mpr (Nat.lt_trans (cmpN_gt_iff.mp h2) (cmpN_gt_iff.mp h1))

theorem cmpChar_eq_iff {a b : Char} : cmpChar a b = .eq ↔ a = b := by
  unfold cmpChar
  constructor
  · intro h
    exact Char.ext (UInt32.ext (cmpN_eq_iff.mp h))
  · intro h; subst h; exact cmpN_refl _

theorem cmpChar_swap (a b : Char) : cmpChar b a = (cmpChar a b).swap := cmpN_swap _ _

theorem cmpChar_gt_trans {a b c : Char} (h1 : cmpChar a b = .gt) (h2 : cmpChar b c = .gt) :
    cmpChar a c = .gt := cmpN_gt_trans h1 h2

theorem cmpCharL_eq_iff : ∀ {l1 l2 : List Char}, cmpCharL l1 l2 = .eq ↔ l1 = l2
  | [], [] => by simp [cmpCharL]
  | [], _ :: _ => by simp [cmpCharL]
  | _ :: _, [] => by simp [cmpCharL]
  | a :: as, b :: bs => by
    simp only [cmpCharL]
    rcases h : cmpChar a b with _ | _ | _
    · simp only []
      constructor
      · intro hc; cases hc
      · rintro ⟨rfl, rfl⟩; rw [cmpChar_eq_iff.mpr rfl] at h; cases h
    · simp only []
      rw [cmpCharL_eq_iff]
      have hab := cmpChar_eq_iff.mp h
      subst hab
      simp
    · simp only []
      constructor
      · intro hc; cases hc
      · rintro ⟨rfl, rfl⟩; rw [cmpChar_eq_iff.mpr rfl] at h; cases h

theorem cmpCharL_swap : ∀ (l1 l2 : List Char), cmpCharL l2 l1 = (cmpCharL l1 l2).swap
  | [], [] => rfl
  | [], _ :: _ => rfl
  | _ :: _, [] => rfl
  | a :: as, b :: bs => by
    simp only [cmpCharL, cmpChar_swap a b]
    rcases cmpChar a b with _ | _ | _
    · rfl
    · simpa [Ordering.swap] using cmpCharL_swap as bs
    · rfl

theorem cmpCharL_gt_trans : ∀ {l1 l2 l3 : List Char},
    cmpCharL l1 l2 = .gt → cmpCharL l2 l3 = .gt → cmpCharL l1 l3 = .gt
  | [], l2, l3 => by
    intro h1
    cases l2 <;> simp [cmpCharL] at h1
  | _ :: _, [], l3 => by
    intro h1 h2
    cases l3 <;> simp [cmpCharL] at h2
  | a :: as, b :: bs, [] => by intro h1 h2; simp [cmpCharL]
  | a :: as, b :: bs, c :: cs => by
    simp only [cmpCharL]
    rcases hab : cmpChar a b with _ | _ | _ <;> intro h1 <;> try cases h1
    all_goals rcases hbc : cmpChar b c with _ | _ | _ <;> intro h2 <;> try cases h2
    · -- heads equal on both sides
      have := cmpChar_eq_iff.mp hab
      subst this
      rw [hbc]
      exact cmpCharL_gt_trans h1 h2
    · -- a = b, b > c
      have := cmpChar_eq_iff.mp hab
      subst this
      rw [hbc]
    · -- a > b, b = c
      have := cmpChar_eq_iff.mp hbc
      subst this
      rw [hab]
    · -- a > b > c
      rw [cmpChar_gt_trans hab hbc]

theorem cmpS_eq_iff {a b : String} : cmpS a b = .eq ↔ a = b := by
  unfold cmpS
  constructor
  · intro h; exact String.ext (cmpCharL_eq_iff.mp h)
  · intro h; subst h; exact cmpCharL_eq_iff.mpr rfl

theorem cmpS_refl (a : String) : cmpS a a = .eq := cmpS_eq_iff.mpr rfl

theorem cmpS_swap (a b : String) : cmpS b a = (cmpS a b).swap := cmpCharL_swap _ _

theorem cmpS_gt_trans {a b c : String} (h1 : cmpS a b = .gt) (h2 : cmpS b c = .gt) :
    cmpS a c = .gt := cmpCharL_gt_trans h1 h2

theorem cmpStrL_eq_iff : ∀ {l1 l2 : List String}, cmpStrL l1 l2 = .eq ↔ l1 = l2
  | [], [] => by simp [cmpStrL]
  | [], _ :: _ => by simp [cmpStrL]
  | _ :: _, [] => by simp [cmpStrL]
  | a :: as, b :: bs => by
    simp only [cmpStrL]
    rcases h : cmpS a b with _ | _ | _
    · simp only []
      constructor
      · intro hc; cases hc
      · rintro ⟨rfl, rfl⟩; rw [cmpS_refl] at h; cases h
    · simp only []
      rw [cmpStrL_eq_iff]
      have hab := cmpS_eq_iff.mp h
      subst hab
      simp
    · simp only []
      constructor
      · intro hc; cases hc
      · rintro ⟨rfl, rfl⟩; rw [cmpS_refl] at h; cases h

theorem cmpStrL_refl (l : List String) : cmpStrL l l = .eq := cmpStrL_eq_iff.mpr rfl

theorem cmpStrL_swap : ∀ (l1 l2 : List String), cmpStrL l2 l1 = (cmpStrL l1 l2).swap
  | [], [] => rfl
  | [], _ :: _ => rfl
  | _ :: _, [] => rfl
  | a :: as, b :: bs => by
    simp only [cmpStrL, cmpS_swap a b]
    rcases cmpS a b with _ | _ | _
    · rfl
    · simpa [Ordering.swap] using cmpStrL_swap as bs
    · rfl

theorem cmpStrL_gt_trans : ∀ {l1 l2 l3 : List String},
    cmpStrL l1 l2 = .gt → cmpStrL l2 l3 = .gt → cmpStrL l1 l3 = .gt
  | [], l2, l3 => by
    intro h1
    cases l2 <;> simp [cmpStrL] at h1
  | _ :: _, [], l3 => by
    intro h1 h2
    cases l3 <;> simp [cmpStrL] at h2
  | a :: as, b :: bs, [] => by intro h1 h2; simp [cmpStrL]
  | a :: as, b :: bs, c :: cs => by
    simp only [cmpStrL]
    rcases hab : cmpS a b with _ | _ | _ <;> intro h1 <;> try cases h1
    all_goals rcases hbc : cmpS b c with _ | _ | _ <;> intro h2 <;> try cases h2
    · have := cmpS_eq_iff.mp hab
      subst this
      rw [hbc]
      exact cmpStrL_gt_trans h1 h2
    · have := cmpS_eq_iff.mp hab
      subst this
      rw [hbc]
    · have := cmpS_eq_iff.mp hbc
      subst this
      rw [hab]
    · rw [cmpS_gt_trans hab hbc]

theorem cmpAtom_eq {x y : PAtom} (h : cmpAtom x y = some .eq) : x = y := by
  cases x <;> cases y <;> simp [cmpAtom] at h ⊢
  · exact cmpN_eq_iff.mp h
  · exact cmpS_eq_iff.mp h

theorem cmpAtom_refl (x : PAtom) : cmpAtom x x = some .eq := by
  cases x <;> simp [cmpAtom, cmpN_refl, cmpS_refl]

theorem cmpAtom_swap (x y : PAtom) : cmpAtom y x = (cmpAtom x y).map Ordering.swap := by
  cases x <;> cases y <;>
    simp only [cmpAtom, Option.map_some, Option.map_none, Option.map] <;>
    first
    | rfl
    | rw [cmpN_swap]
    | rw [cmpS_swap]

theorem cmpAtom_gt_trans {x y z : PAtom} (h1 : cmpAtom x y = some .gt)
    (h2 : cmpAtom y z = some .gt) : cmpAtom x z = some .gt := by
  cases x <;> cases y <;> cases z <;> simp [cmpAtom] at h1 h2 ⊢
  · exact cmpN_gt_trans h1 h2
  · exact cmpS_gt_trans h1 h2

theorem cmpElem_eq {x y : PElem} (h : cmpElem x y = some .eq) : x = y := by
  cases x <;> cases y <;> simp [cmpElem] at h ⊢
  · exact cmpAtom_eq h
  · exact cmpStrL_eq_iff.mp h

theorem cmpElem_refl (x : PElem) : cmpElem x x = some .eq := by
  cases x <;> simp [cmpElem, cmpAtom_refl, cmpStrL_refl]

theorem cmpElem_swap (x y : PElem) : cmpElem y x = (cmpElem x y).map Ordering.swap := by
  cases x <;> cases y <;> simp only [cmpElem, Option.map] <;>
    first
    | rfl
    | exact cmpAtom_swap _ _
    | rw [cmpStrL_swap]

theorem cmpElem_gt_trans {x y z : PElem} (h1 : cmpElem x y = some .gt)
    (h2 : cmpElem y z = some .gt) : cmpElem x z = some .gt := by
  cases x <;> cases y <;> cases z <;> simp [cmpElem] at h1 h2 ⊢
  · exact cmpAtom_gt_trans h1 h2
  · exact cmpStrL_gt_trans h1 h2

theorem cmpInps_eq : ∀ {l1 l2 : List PElem}, cmpInps l1 l2 = some .eq → l1 = l2
  | [], [] => by simp
  | [], _ :: _ => by simp [cmpInps]
  | _ :: _, [] => by simp [cmpInps]
  | x :: xs, y :: ys => by
    simp only [cmpInps]
    rcases h : cmpElem x y with _ | o
    · simp
    · rcases o with _ | _ | _
      · simp
      · intro h2
        have := cmpElem_eq h
        subst this
        rw [cmpInps_eq h2]
      · simp

theorem cmpInps_refl : ∀ (l : List PElem), cmpInps l l = some .eq
  | [] => rfl
  | x :: xs => by simp only [cmpInps, cmpElem_refl]; exact cmpInps_refl xs

theorem cmpInps_swap : ∀ (l1 l2 : List PElem), cmpInps l2 l1 = (cmpInps l1 l2).map Ordering.swap
  | [], [] => rfl
  | [], _ :: _ => rfl
  | _ :: _, [] => rfl
  | x :: xs, y :: ys => by
    simp only [cmpInps, cmpElem_swap x y]
    rcases cmpElem x y with _ | o
    · rfl
    · rcases o with _ | _ | _
      · rfl
      · simpa [Option.map, Ordering.swap] using cmpInps_swap xs ys
      · rfl

theorem cmpInps_cons_none {x y : PElem} {xs ys : List PElem} (h : cmpElem x y = none) :
    cmpInps (x :: xs) (y :: ys) = none := by
  simp [cmpInps, h]

theorem cmpInps_cons_step {x y : PElem} {xs ys : List PElem} (h : cmpElem x y = some .eq) :
    cmpInps (x :: xs) (y :: ys) = cmpInps xs ys := by
  simp [cmpInps, h]

theorem cmpInps_cons_lt {x y : PElem} {xs ys : List PElem} (h : cmpElem x y = some .lt) :
    cmpInps (x :: xs) (y :: ys) = some .lt := by
  simp [cmpInps, h]

theorem cmpInps_cons_gt {x y : PElem} {xs ys : List PElem} (h : cmpElem x y = some .gt) :
    cmpInps (x :: xs) (y :: ys) = some .gt := by
  simp [cmpInps, h]

theorem cmpInps_cons_gt_iff {x y : PElem} {xs ys : List PElem} :
    cmpInps (x :: xs) (y :: ys) = some .gt ↔
      cmpElem x y = some .gt ∨ (x = y ∧ cmpInps xs ys = some .gt) := by
  constructor
  · intro hc
    rcases h : cmpElem x y with _ | o
    · rw [cmpInps_cons_none h] at hc; cases hc
    · rcases o with _ | _ | _
      · rw [cmpInps_cons_lt h] at hc; cases hc
      · rw [cmpInps_cons_step h] at hc
        exact Or.inr ⟨cmpElem_eq h, hc⟩
      · exact Or.inl rfl
  · rintro (h | ⟨rfl, h⟩)
    · exact cmpInps_cons_gt h
    · rw [cmpInps_cons_step (cmpElem_refl x)]; exact h

theorem cmpInps_gt_trans : ∀ {l1 l2 l3 : List PElem},
    cmpInps l1 l2 = some .gt → cmpInps l2 l3 = some .gt → cmpInps l1 l3 = some .gt
  | [], l2, l3 => by
    intro h1
    cases l2 <;> simp [cmpInps] at h1
  | _ :: _, [], l3 => by
    intro h1 h2
    cases l3 <;> simp [cmpInps] at h2
  | a :: as, b :: bs, [] => by intro h1 h2; simp [cmpInps]
  | a :: as, b :: bs, c :: cs => by
    intro h1 h2
    rcases cmpInps_cons_gt_iff.mp h1 with hab | ⟨rfl, hab⟩ <;>
      rcases cmpInps_cons_gt_iff.mp h2 with hbc | ⟨rfl, hbc⟩
    · exact cmpInps_cons_gt_iff.mpr (Or.inl (cmpElem_gt_trans hab hbc))
    · exact cmpInps_cons_gt_iff.mpr (Or.inl hab)
    · exact cmpInps_cons_gt_iff.mpr (Or.inl hbc)
    · exact cmpInps_cons_gt_iff.mpr (Or.inr ⟨rfl, cmpInps_gt_trans hab hbc⟩)

theorem cmpSortKey_eq {k k' : SortKey} (h : cmpSortKey k k' = some .eq) : k = k' := by
  obtain ⟨a, i, s, v⟩ := k
  obtain ⟨a', i', s', v'⟩ := k'
  simp only [cmpSortKey] at h
  rcases h1 : cmpN a a' with _ | _ | _ <;> rw [h1] at h <;> try (cases h)
  have ha := cmpN_eq_iff.mp h1
  subst ha
  rcases h2 : cmpInps i i' with _ | o <;> rw [h2] at h
  · cases h
  rcases o with _ | _ | _ <;> try (cases h)
  have hi := cmpInps_eq h2
  subst hi
  rcases h3 : cmpN s s' with _ | _ | _ <;> rw [h3] at h <;> try (cases h)
  have hs := cmpN_eq_iff.mp h3
  subst hs
  have hv := cmpS_eq_iff.mp (by injection h)
  subst hv
  rfl

theorem cmpSortKey_refl (k : SortKey) : cmpSortKey k k = some .eq := by
  obtain ⟨a, i, s, v⟩ := k
  simp [cmpSortKey, cmpN_refl, cmpInps_refl, cmpS_refl]

theorem cmpSortKey_swap (k k' : SortKey) :
    cmpSortKey k' k = (cmpSortKey k k').map Ordering.swap := by
  obtain ⟨a, i, s, v⟩ := k
  obtain ⟨a', i', s', v'⟩ := k'
  simp only [cmpSortKey, cmpN_swap a a', cmpInps_swap i i', cmpN_swap s s', cmpS_swap v v']
  rcases cmpN a a' with _ | _ | _ <;> simp [Ordering.swap]
  rcases cmpInps i i' with _ | o
  · simp
  rcases o with _ | _ | _ <;> simp [Ordering.swap]
  rcases cmpN s s' with _ | _ | _ <;> simp [Ordering.swap]

theorem cmpSortKey_gt_iff {k k' : SortKey} :
    cmpSortKey k k' = some .gt ↔
      cmpN k.1 k'.1 = .gt ∨ (k.1 = k'.1 ∧
        (cmpInps k.2.1 k'.2.1 = some .gt ∨ (k.2.1 = k'.2.1 ∧
          (cmpN k.2.2.1 k'.2.2.1 = .gt ∨ (k.2.2.1 = k'.2.2.1 ∧
            cmpS k.2.2.2 k'.2.2.2 = .gt))))) := by
  obtain ⟨a, i, s, v⟩ := k
  obtain ⟨a', i', s', v'⟩ := k'
  simp only [cmpSortKey]
  rcases h1 : cmpN a a' with _ | _ | _
  · have hne : ¬ a = a' := by
      intro hh; subst hh; rw [cmpN_refl] at h1; cases h1
    simp [hne]
  · have ha : a = a' := cmpN_eq_iff.mp h1
    subst ha
    simp only [cmpN_refl, true_and, reduceCtorEq, false_or]
    rcases h2 : cmpInps i i' with _ | o
    · have hne : ¬ i = i' := by
        intro hh; subst hh; rw [cmpInps_refl] at h2; cases h2
      simp [hne]
    · rcases o with _ | _ | _
      · have hne : ¬ i = i' := by
          intro hh; subst hh; rw [cmpInps_refl] at h2; cases h2
        simp [hne]
      · have hi : i = i' := cmpInps_eq h2
        subst hi
        simp only [true_and, reduceCtorEq, false_or]
        rcases h3 : cmpN s s' with _ | _ | _
        · have hne : ¬ s = s' := by
            intro hh; subst hh; rw [cmpN_refl] at h3; cases h3
          simp [hne]
        · have hs : s = s' := cmpN_eq_iff.mp h3
          subst hs
          simp
        · simp
      · simp
  · simp

theorem cmpSortKey_gt_trans {k1 k2 k3 : SortKey} (h1 : cmpSortKey k1 k2 = some .gt)
    (h2 : cmpSortKey k2 k3 = some .gt) : cmpSortKey k1 k3 = some .gt := by
  obtain ⟨a1, i1, s1, v1⟩ := k1
  obtain ⟨a2, i2, s2, v2⟩ := k2
  obtain ⟨a3, i3, s3, v3⟩ := k3
  rw [cmpSortKey_gt_iff] at h1 h2 ⊢
  simp only at h1 h2 ⊢
  rcases h1 with h1 | ⟨rfl, h1⟩ <;> rcases h2 with h2 | ⟨rfl, h2⟩
  · exact Or.inl (cmpN_gt_trans h1 h2)
  · exact Or.inl h1
  · exact Or.inl h2
  refine Or.inr ⟨rfl, ?_⟩
  rcases h1 with h1 | ⟨rfl, h1⟩ <;> rcases h2 with h2 | ⟨rfl, h2⟩
  · exact Or.inl (cmpInps_gt_trans h1 h2)
  · exact Or.inl h1
  · exact Or.inl h2
  refine Or.inr ⟨rfl, ?_⟩
  rcases h1 with h1 | ⟨rfl, h1⟩ <;> rcases h2 with h2 | ⟨rfl, h2⟩
  · exact Or.inl (cmpN_gt_trans h1 h2)
  · exact Or.inl h1
  · exact Or.inl h2
  exact Or.inr ⟨rfl, cmpS_gt_trans h1 h2⟩

theorem keyGE_trans {k1 k2 k3 : SortKey} (h1 : KeyGE k1 k2) (h2 : KeyGE k2 k3) :
    KeyGE k1 k3 := by
  rcases h1 with h1 | rfl
  · rcases h2 with h2 | rfl
    · exact Or.inl (cmpSortKey_gt_trans h1 h2)
    · exact Or.inl h1
  · exact h2

theorem keyGE_of_lt {k k' : SortKey} (h : cmpSortKey k k' = some .lt) : KeyGE k' k := by
  left
  rw [cmpSortKey_swap, h]
  rfl

theorem keyGE_of_not_lt {k k' : SortKey} {o : Ordering} (h : cmpSortKey k k' = some o)
    (ho : o ≠ .lt) : KeyGE k k' := by
  rcases o with _ | _ | _
  · exact absurd rfl ho
  · exact Or.inr (cmpSortKey_eq h)
  · exact Or.inl h

theorem insG_perm : ∀ {l l' : List PGroup} {x : PGroup}, insG x l = some l' → l'.Perm (x :: l)
  | [], l', x => by
    intro h
    injection h with h
    subst h
    exact List.Perm.refl _
  | y :: ys, l', x => by
    simp only [insG]
    rcases h : cmpSortKey x.1 y.1 with _ | o
    · intro hc; cases hc
    · rcases o with _ | _ | _
      · simp only [Option.map_eq_some']
        rintro ⟨l'', hl'', rfl⟩
        exact (List.Perm.cons y (insG_perm hl'')).trans (List.Perm.swap x y ys)
      · intro hc
        injection hc with hc
        subst hc
        exact List.Perm.refl _
      · intro hc
        injection hc with hc
        subst hc
        exact List.Perm.refl _

theorem psortG_perm : ∀ {l l' : List PGroup}, psortG l = some l' → l'.Perm l
  | [], l' => by
    intro h
    injection h with h
    subst h
    exact List.Perm.refl _
  | x :: xs, l' => by
    simp only [psortG, Option.bind_eq_some]
    rintro ⟨m, hm, hins⟩
    exact (insG_perm hins).trans (List.Perm.cons x (psortG_perm hm))

theorem insG_sorted : ∀ {l l' : List PGroup} {x : PGroup},
    l.Pairwise (fun g h => KeyGE g.1 h.1) → insG x l = some l' →
    l'.Pairwise (fun g h => KeyGE g.1 h.1)
  | [], l', x => by
    intro _ h
    injection h with h
    subst h
    simp
  | y :: ys, l', x => by
    intro hp
    simp only [insG]
    rcases h : cmpSortKey x.1 y.1 with _ | o
    · intro hc; cases hc
    · rcases o with _ | _ | _
      · simp only [Option.map_eq_some']
        rintro ⟨l'', hl'', rfl⟩
        rcases List.pairwise_cons.mp hp with ⟨hy, hys⟩
        refine List.pairwise_cons.mpr ⟨?_, insG_sorted hys hl''⟩
        intro z hz
        have hz2 : z ∈ x :: ys := (insG_perm hl'').mem_iff.mp hz
        rcases List.mem_cons.mp hz2 with rfl | hz3
        · exact keyGE_of_lt h
        · exact hy z hz3
      · intro hc
        injection hc with hc
        subst hc
        rcases List.pairwise_cons.mp hp with ⟨hy, _⟩
        refine List.pairwise_cons.mpr ⟨?_, hp⟩
        intro z hz
        rcases List.mem_cons.mp hz with rfl | hz2
        · exact keyGE_of_not_lt h (by simp)
        · exact keyGE_trans (keyGE_of_not_lt h (by simp)) (hy z hz2)
      · intro hc
        injection hc with hc
        subst hc
        rcases List.pairwise_cons.mp hp with ⟨hy, _⟩
        refine List.pairwise_cons.mpr ⟨?_, hp⟩
        intro z hz
        rcases List.mem_cons.mp hz with rfl | hz2
        · exact keyGE_of_not_lt h (by simp)
        · exact keyGE_trans (keyGE_of_not_lt h (by simp)) (hy z hz2)

theorem psortG_sorted : ∀ {l l' : List PGroup}, psortG l = some l' →
    l'.Pairwise (fun g h => KeyGE g.1 h.1)
  | [], l' => by
    intro h
    injection h with h
    subst h
    simp
  | x :: xs, l' => by
    simp only [psortG, Option.bind_eq_some]
    rintro ⟨m, hm, hins⟩
    exact insG_sorted (psortG_sorted hm) hins

theorem insG_isSome : ∀ {l : List PGroup} {x : PGroup},
    (∀ y ∈ l, (cmpSortKey x.1 y.1).isSome) → (insG x l).isSome
  | [], x => by intro _; simp [insG]
  | y :: ys, x => by
    intro h
    simp only [insG]
    rcases hc : cmpSortKey x.1 y.1 with _ | o
    · have := h y (List.mem_cons_self y ys)
      rw [hc] at this
      cases this
    · rcases o with _ | _ | _
      · have := insG_isSome (fun z hz => h z (List.mem_cons_of_mem y hz))
        rcases hs : insG x ys with _ | m
        · rw [hs] at this; cases this
        · simp [hs]
      · simp
      · simp

theorem psortG_isSome : ∀ {l : List PGroup},
    (∀ a ∈ l, ∀ b ∈ l, (cmpSortKey a.1 b.1).isSome) → (psortG l).isSome
  | [] => by intro _; simp [psortG]
  | x :: xs => by
    intro h
    simp only [psortG]
    have hxs := psortG_isSome (fun a ha b hb =>
      h a (List.mem_cons_of_mem x ha) b (List.mem_cons_of_mem x hb))
    rcases hm : psortG xs with _ | m
    · rw [hm] at hxs; cases hxs
    · have : ∀ y ∈ m, (cmpSortKey x.1 y.1).isSome := by
        intro y hy
        exact h x (List.mem_cons_self x xs) y
          (List.mem_cons_of_mem x ((psortG_perm hm).mem_iff.mp hy))
      simpa using insG_isSome this

/-! ## Claim C3: order of the output groups -/

/-- C3 (amended): the groups output by `group_and_sort_statements` are
ordered descending by the tuple `(arg_weight, role_tuple, group_weight,
type_tag)` under the partial lexicographic comparison: any earlier group's
key is strictly greater or equal; in particular, two groups with equal
argument weight and equal role tuple but different group weight put the
higher group weight first, and groups equal in all three are ordered
descending (reverse-alphabetically) by type name — not ascending as the
claim states. -/
theorem claim_C3_group_order (stmts : List PStmt) (et : EvTotals) (out : List PGroup)
    (hout : groupAndSortStatements stmts et = some out)
    (i j : Fin out.length) (hij : i < j) :
    KeyGE (out.get i).1 (out.get j).1 ∧
    ((out.get i).1.1 = (out.get j).1.1 →
     (out.get i).1.2.1 = (out.get j).1.2.1 →
     ((out.get i).1.2.2.1 ≠ (out.get j).1.2.2.1 → (out.get j).1.2.2.1 < (out.get i).1.2.2.1) ∧
     ((out.get i).1.2.2.1 = (out.get j).1.2.2.1 → (out.get i).1 ≠ (out.get j).1 →
       cmpS (out.get i).1.2.2.2 (out.get j).1.2.2.2 = .gt)) := by
  have hp := psortG_sorted (show psortG _ = some out from hout)
  have hge : KeyGE (out.get i).1 (out.get j).1 :=
    (List.pairwise_iff_get.mp hp) i j hij
  refine ⟨hge, ?_⟩
  intro harg hinps
  rcases hge with hgt | heq
  · rw [cmpSortKey_gt_iff] at hgt
    rcases hgt with hN | ⟨_, hrest⟩
    · rw [harg, cmpN_refl] at hN; cases hN
    rcases hrest with hI | ⟨_, hrest⟩
    · rw [hinps, cmpInps_refl] at hI; cases hI
    rcases hrest with hS | ⟨hsub, hverb⟩
    · constructor
      · intro _; exact cmpN_gt_iff.mp hS
      · intro hsub _; rw [hsub, cmpN_refl] at hS; cases hS
    · constructor
      · intro hne; exact absurd hsub hne
      · intro _ _; exact hverb
  · constructor
    · intro hne; exact absurd (congrArg (fun k => k.2.2.1) heq) hne
    · intro _ hne; exact absurd heq hne

/-- C3 counterexample: two one-evidence statements of generic types
`Activation` and `Phosphorylation` over the same agents produce two groups
equal in argument weight, role tuple and group weight, and the output
orders `Phosphorylation` before `Activation` — reverse-alphabetically,
refuting the claimed ascending alphabetical tie-break. -/
theorem claim_C3_counterexample :
    groupAndSortStatements [exActAB, exPhosAB] none =
      some [((2, [strE "A", strE "B"], 1, "Phosphorylation"), "Phosphorylation", [exPhosAB]),
            ((2, [strE "A", strE "B"], 1, "Activation"), "Activation", [exActAB])] := by
  decide

/-- Witness for C3: the theorem applied to a concrete run, yielding the
reverse-alphabetical tie-break between the two equal-weight groups. -/
theorem claim_C3_group_order_witness :
    cmpS "Phosphorylation" "Activation" = .gt := by
  have h := claim_C3_group_order [exActAB, exPhosAB] none
    [((2, [strE "A", strE "B"], 1, "Phosphorylation"), "Phosphorylation", [exPhosAB]),
     ((2, [strE "A", strE "B"], 1, "Activation"), "Activation", [exActAB])]
    (by decide) ⟨0, by decide⟩ ⟨1, by decide⟩ (by decide)
  exact (h.2 rfl rfl).2 rfl (by decide)

/-! ## Claim C2: the end-to-end two-statement scenario -/

/-- C2 (amended): for the input of one direct two-member Complex over
(A,B) with weight 2 and one three-member Complex over {A,B,C} with weight
5, the derived pairwise groups over (A,C) and (B,C) are suppressed (their
group weight equals their argument weight and their only member has three
distinct names), and the (A,B) relationship appears twice — once per
orientation, `(B,A)` then `(A,B)` — each with combined weight 7, ranked
above the full group (A,B,C) of weight 5. -/
theorem claim_C2_scenario :
    groupAndSortStatements [exDirectAB, exTripleABC] none =
      some [((7, [strE "B", strE "A"], 7, "Complex"), "Complex", [exTripleABC, exDirectAB]),
            ((7, [strE "A", strE "B"], 7, "Complex"), "Complex", [exTripleABC, exDirectAB]),
            ((5, [strE "A", strE "B", strE "C"], 5, "Complex"), "Complex", [exTripleABC])] := by
  decide

/-- C2 counterexample: on that input the output contains no group whose
role tuple is (A,C) at all — the derived pairwise group is suppressed,
refuting the claim that `(type,A,C)` (weight 5) is present and ranked
above `(type,A,B)`. -/
theorem claim_C2_counterexample :
    ¬ ∃ g ∈ (groupAndSortStatements [exDirectAB, exTripleABC] none).getD [],
        g.1.2.1 = [strE "A", strE "C"] := by
  decide

/-! ## The member sort key as a rational -/

theorem memberKey_eq_div (et : EvTotals) (s : PStmt) :
    memberKey et s = (memberNum et s : ℚ) / (memberDen s : ℚ) := by
  unfold memberKey memberNum memberDen
  have h : ((1 : ℚ) + (s.agentList.length : ℚ)) ≠ 0 := by positivity
  push_cast
  field_simp

theorem memberLe_iff (et : EvTotals) (y x : PStmt) :
    memberLe et y x = true ↔ memberKey et y ≤ memberKey et x := by
  have hy : (0 : ℚ) < (memberDen y : ℚ) := by unfold memberDen; push_cast; positivity
  have hx : (0 : ℚ) < (memberDen x : ℚ) := by unfold memberDen; push_cast; positivity
  rw [memberKey_eq_div, memberKey_eq_div, div_le_div_iff hy hx]
  simp only [memberLe, decide_eq_true_eq]
  exact_mod_cast Iff.rfl

/-! ## Association lists and the key-uniqueness of the row dict -/

theorem assocGet_mem {κ β : Type} [DecidableEq κ] :
    ∀ {l : List (κ × β)} {k : κ} {v : β}, assocGet l k = some v → (k, v) ∈ l
  | [], k, v => by simp [assocGet]
  | (k', v') :: rest, k, v => by
    simp only [assocGet]
    split_ifs with h
    · intro hv
      injection hv with hv
      subst h hv
      exact List.mem_cons_self _ _
    · intro hv
      exact List.mem_cons_of_mem _ (assocGet_mem hv)

theorem mem_assocGet {κ β : Type} [DecidableEq κ] :
    ∀ {l : List (κ × β)} {k : κ} {v : β}, (l.map Prod.fst).Nodup →
      (k, v) ∈ l → assocGet l k = some v
  | [], k, v => by simp
  | (k', v') :: rest, k, v => by
    intro hnd hm
    rcases List.mem_cons.mp hm with heq | hm2
    · injection heq with h1 h2
      subst h1 h2
      simp [assocGet]
    · have hk : k' ≠ k := by
        intro hkk
        subst hkk
        have : k' ∈ rest.map Prod.fst := List.mem_map.mpr ⟨(k', v), hm2, rfl⟩
        exact (List.nodup_cons.mp hnd).1 this
      simp only [assocGet, if_neg hk]
      exact mem_assocGet (List.nodup_cons.mp hnd).2 hm2

theorem rowsAdd_fst (k : GKey) (s : PStmt) :
    ∀ l : List (GKey × List PStmt),
      (rowsAdd k s l).map Prod.fst = if k ∈ l.map Prod.fst then l.map Prod.fst
        else l.map Prod.fst ++ [k]
  | [] => by simp [rowsAdd]
  | (k', ss) :: rest => by
    simp only [rowsAdd]
    split_ifs with h1 h2 h3
    · simp [← h1]
    · subst h1
      simp at h2
    · simp only [List.map_cons]
      rw [rowsAdd_fst k s rest, if_pos]
      rcases List.mem_cons.mp h3 with hk | hk
      · exact absurd hk.symm h1
      · exact hk
    · simp only [List.map_cons]
      rw [rowsAdd_fst k s rest, if_neg]
      · simp
      · intro hk
        exact h3 (List.mem_cons_of_mem _ hk)

theorem rowsAdd_nodup (k : GKey) (s : PStmt) (l : List (GKey × List PStmt))
    (h : (l.map Prod.fst).Nodup) : ((rowsAdd k s l).map Prod.fst).Nodup := by
  rw [rowsAdd_fst]
  split_ifs with hm
  · exact h
  · simpa using List.Nodup.append h (by simp) (by simpa using hm)

theorem aggStep_rows (et : EvTotals) (st : AggState) (ks : GKey × PStmt) :
    (aggStep et st ks).rows = rowsAdd ks.1 ks.2 st.rows := by
  obtain ⟨k, s⟩ := ks
  simp only [aggStep]
  split <;> rfl

theorem aggregate_rows_nodup (stmts : List PStmt) (et : EvTotals) :
    (((aggregate stmts et).rows).map Prod.fst).Nodup := by
  unfold aggregate
  generalize keyedStmts stmts = ks
  have h : ∀ (st : AggState), (st.rows.map Prod.fst).Nodup →
      (((ks.foldl (aggStep et) st).rows).map Prod.fst).Nodup := by
    induction ks with
    | nil => intro st h; simpa using h
    | cons p rest ih =>
      intro st h
      simp only [List.foldl_cons]
      apply ih
      rw [aggStep_rows]
      exact rowsAdd_nodup _ _ _ h
  exact h _ (by simp)

/-! ## Claim C1: the derived-pair suppression rule -/

theorem assocGetD_of_ne {κ β : Type} [DecidableEq κ] {l : List (κ × β)} {k : κ} {d : β}
    (h : assocGetD l k d ≠ d) : assocGet l k = some (assocGetD l k d) := by
  unfold assocGetD at h ⊢
  rcases hx : assocGet l k with _ | v
  · rw [hx] at h
    simp at h
  · rfl

/-- C1: a two-name Complex group is dropped from the output of
`group_and_sort_statements` whenever its accumulated group weight equals
the accumulated argument weight of its role tuple and every member
statement has more than two distinct participant names; conversely, a
group containing a direct two-participant member statement appears in the
output with the combined group weight. -/
theorem claim_C1_suppression (stmts : List PStmt) (et : EvTotals) (a b : String)
    (out : List PGroup) (hwf : wfStmts stmts)
    (hout : groupAndSortStatements stmts et = some out) :
    (groupWeight stmts et ("Complex", [strE a, strE b]) =
        argWeight stmts et [strE a, strE b] →
     (∀ s ∈ rowMembers stmts et ("Complex", [strE a, strE b]), 2 < namesCard s) →
     ∀ g ∈ out, ¬(g.2.1 = "Complex" ∧ g.1.2.1 = [strE a, strE b])) ∧
    ((∃ s ∈ rowMembers stmts et ("Complex", [strE a, strE b]), namesCard s = 2) →
     ∃ ss, ((argWeight stmts et [strE a, strE b], [strE a, strE b],
             groupWeight stmts et ("Complex", [strE a, strE b]), "Complex"),
            "Complex", ss) ∈ out) := by
  have hperm := psortG_perm (show psortG _ = some out from hout)
  constructor
  · rintro hw hall g hg ⟨hverb, hinps⟩
    have hg2 : g ∈ processRows et (aggregate stmts et) := hperm.mem_iff.mp hg
    obtain ⟨r, hr, hfr⟩ := List.mem_filterMap.mp hg2
    by_cases hsup : suppressed (aggregate stmts et).stmtCounts (aggregate stmts et).argCounts r.1 r.2 = true
    · rw [if_pos hsup] at hfr
      cases hfr
    · rw [if_neg hsup] at hfr
      injection hfr with hfr
      subst hfr
      simp only at hverb hinps
      apply hsup
      have hk : r.1 = ("Complex", [strE a, strE b]) := by
        rw [← hverb, ← hinps]
      have hr1 : (r.1, r.2) ∈ (aggregate stmts et).rows := hr
      rw [hk] at hr1
      have hmem : assocGet (aggregate stmts et).rows ("Complex", [strE a, strE b]) = some r.2 :=
        mem_assocGet (aggregate_rows_nodup stmts et) hr1
      have hr2 : r.2 = rowMembers stmts et ("Complex", [strE a, strE b]) := by
        unfold rowMembers assocGetD
        rw [hmem]
        rfl
      rw [hk]
      unfold suppressed
      simp only [Bool.and_eq_true, decide_eq_true_eq]
      refine ⟨⟨⟨by simp, hw⟩, by simp⟩, ?_⟩
      rw [List.all_eq_true]
      intro s hs
      rw [hr2] at hs
      simpa using hall s hs
  · rintro ⟨s, hs, hcard⟩
    have hne : rowMembers stmts et ("Complex", [strE a, strE b]) ≠ [] := by
      intro h
      rw [h] at hs
      cases hs
    have hget : assocGet (aggregate stmts et).rows ("Complex", [strE a, strE b]) =
        some (rowMembers stmts et ("Complex", [strE a, strE b])) :=
      assocGetD_of_ne hne
    have hmem := assocGet_mem hget
    have hnsup : suppressed (aggregate stmts et).stmtCounts (aggregate stmts et).argCounts
        ("Complex", [strE a, strE b]) (rowMembers stmts et ("Complex", [strE a, strE b])) = false := by
      unfold suppressed
      simp only [Bool.and_eq_false_iff]
      right
      rw [List.all_eq_false]
      refine ⟨s, hs, ?_⟩
      simp [hcard]
    refine ⟨msortDesc et (rowMembers stmts et ("Complex", [strE a, strE b])), ?_⟩
    apply hperm.mem_iff.mpr
    apply List.mem_filterMap.mpr
    refine ⟨(("Complex", [strE a, strE b]), rowMembers stmts et ("Complex", [strE a, strE b])),
      hmem, ?_⟩
    rw [if_neg (by rw [hnsup]; simp)]
    rfl

/-- Witness for C1: the claim's own example — a three-member Complex over
{A,B,C} with weight 5 plus a direct two-member Complex (A,B) with weight
1.  The (A,B) group appears with combined weight 6, while the derived
(A,C) pair (group weight 5 equal to argument weight 5, single member with
three names) is absent from the output. -/
theorem claim_C1_suppression_witness :
    (∃ ss, ((6, [strE "A", strE "B"], 6, "Complex"), "Complex", ss) ∈
      [((6, [strE "B", strE "A"], 6, "Complex"), "Complex", [exTripleABC, exDirectAB1]),
       ((6, [strE "A", strE "B"], 6, "Complex"), "Complex", [exTripleABC, exDirectAB1]),
       ((5, [strE "A", strE "B", strE "C"], 5, "Complex"), "Complex", [exTripleABC])]) ∧
    (∀ g ∈ [((6, [strE "B", strE "A"], 6, "Complex"), "Complex", [exTripleABC, exDirectAB1]),
       ((6, [strE "A", strE "B"], 6, "Complex"), "Complex", [exTripleABC, exDirectAB1]),
       ((5, [strE "A", strE "B", strE "C"], 5, "Complex"), "Complex", [exTripleABC])],
      ¬(g.2.1 = "Complex" ∧ g.1.2.1 = [strE "A", strE "C"])) := by
  have hAC := claim_C1_suppression [exTripleABC, exDirectAB1] none "A" "C"
    [((6, [strE "B", strE "A"], 6, "Complex"), "Complex", [exTripleABC, exDirectAB1]),
     ((6, [strE "A", strE "B"], 6, "Complex"), "Complex", [exTripleABC, exDirectAB1]),
     ((5, [strE "A", strE "B", strE "C"], 5, "Complex"), "Complex", [exTripleABC])]
    (by unfold wfStmts; decide) (by decide)
  have hAB := claim_C1_suppression [exTripleABC, exDirectAB1] none "A" "B"
    [((6, [strE "B", strE "A"], 6, "Complex"), "Complex", [exTripleABC, exDirectAB1]),
     ((6, [strE "A", strE "B"], 6, "Complex"), "Complex", [exTripleABC, exDirectAB1]),
     ((5, [strE "A", strE "B", strE "C"], 5, "Complex"), "Complex", [exTripleABC])]
    (by unfold wfStmts; decide) (by decide)
  constructor
  · obtain ⟨ss, hss⟩ := hAB.2 ⟨exDirectAB1, by decide, by decide⟩
    exact ⟨ss, hss⟩
  · exact hAC.1 (by decide) (by decide)

/-! ## Claim C5: key inversion recovers the canonical key -/

theorem pyName_decode (n : String) : pyName (decodeAgent n) = n := by
  unfold decodeAgent
  split_ifs with h
  · rw [h]
    rfl
  · rfl

theorem map_pyName_decode : ∀ ns : List String, (ns.map decodeAgent).map pyName = ns
  | [] => rfl
  | n :: rest => by
    simp only [List.map_cons, pyName_decode, map_pyName_decode rest]

theorem elemStrs_map_strE : ∀ ns : List String, elemStrs (ns.map strE) = some ns
  | [] => rfl
  | n :: rest => by
    simp only [elemStrs, List.map_cons, List.mapM_cons]
    have h := elemStrs_map_strE rest
    unfold elemStrs at h
    rw [h]
    rfl

theorem map_strE_decode : ∀ ns : List String,
    (ns.map decodeAgent).map (fun a => strE (pyName a)) = ns.map strE
  | [] => rfl
  | n :: rest => by
    simp only [List.map_cons, pyName_decode, map_strE_decode rest]

/-- C5: for every canonical key of a single-key type variant (default
fixed-role types, Conversion, ActiveForm, HasActivity, and the full-group
Complex key), the statement synthesized by `make_stmt_from_sort_key`
derives the original key back (as the final key it yields), the `'None'`
sentinel passing through an absent role and back. -/
theorem claim_C5_roundtrip (argW subW : Nat) (verb : String) (inps : List PElem)
    (hc : CanonInps verb inps) :
    ∃ s, makeStmtFromSortKey (argW, inps, subW, verb) verb = some s ∧
      (keysOf s).getLast? = some (verb, inps) := by
  by_cases h1 : verb = "Complex"
  · subst h1
    obtain ⟨ns, rfl, hsd, hn2⟩ : ∃ ns : List String,
        inps = ns.map strE ∧ sortedDedup ns = ns ∧ ns.length ≠ 2 := by
      simpa [CanonInps] using hc
    refine ⟨⟨.cplx (ns.map decodeAgent), 0, 0⟩, ?_, ?_⟩
    · simp [makeStmtFromSortKey, elemStrs_map_strE]
    · simp only [keysOf, map_pyName_decode, hsd, if_neg hn2]
      simp [List.getLast?_append]
  by_cases h2 : verb = "Conversion"
  · subst h2
    obtain ⟨subj, f, t, rfl, hf, ht⟩ : ∃ subj f t,
        inps = [strE subj, .tup f, .tup t] ∧ sortedDedup f = f ∧ sortedDedup t = t := by
      simpa [CanonInps] using hc
    refine ⟨⟨.conv (decodeAgent subj) (f.map decodeAgent) (t.map decodeAgent), 0, 0⟩, ?_, ?_⟩
    · simp [makeStmtFromSortKey, strE]
    · simp only [keysOf, map_pyName_decode, hf, ht, pyName_decode]
      rfl
  by_cases h3 : verb = "ActiveForm"
  · subst h3
    obtain ⟨n, act, b, rfl⟩ : ∃ n act b, inps = [strE n, strE act, boolE b] := by
      simpa [CanonInps] using hc
    refine ⟨⟨.activeForm (decodeAgent n) act ((if b then 1 else 0) = 1), 0, 0⟩, ?_, ?_⟩
    · cases b <;> simp [makeStmtFromSortKey, strE, boolE]
    · cases b <;> simp [keysOf, pyName_decode, boolE]
  by_cases h4 : verb = "HasActivity"
  · subst h4
    obtain ⟨n, act, b, rfl⟩ : ∃ n act b, inps = [strE n, strE act, boolE b] := by
      simpa [CanonInps] using hc
    refine ⟨⟨.hasActivity (decodeAgent n) act ((if b then 1 else 0) = 1), 0, 0⟩, ?_, ?_⟩
    · cases b <;> simp [makeStmtFromSortKey, strE, boolE]
    · cases b <;> simp [keysOf, pyName_decode, boolE]
  · obtain ⟨ns, rfl⟩ : ∃ ns : List String, inps = ns.map strE := by
      simpa [CanonInps, h1, h2, h3, h4] using hc
    refine ⟨⟨.generic verb (ns.map decodeAgent), 0, 0⟩, ?_, ?_⟩
    · simp [makeStmtFromSortKey, h1, h2, h3, h4, elemStrs_map_strE]
    · simp [keysOf, map_strE_decode, pyName_decode]

/-- Witness for C5: the theorem applied to the canonical Conversion key
with controller X, inputs {P,Q} and outputs {R}. -/
theorem claim_C5_roundtrip_witness :
    ∃ s, makeStmtFromSortKey (0, [strE "X", .tup ["P", "Q"], .tup ["R"]], 0, "Conversion")
        "Conversion" = some s ∧
      (keysOf s).getLast? = some ("Conversion", [strE "X", .tup ["P", "Q"], .tup ["R"]]) :=
  claim_C5_roundtrip 0 0 "Conversion" [strE "X", .tup ["P", "Q"], .tup ["R"]]
    (by
      unfold CanonInps
      rw [if_neg (by decide), if_pos rfl]
      exact ⟨"X", ["P", "Q"], ["R"], rfl, by decide, by decide⟩)

/-! ## Claim C4: totality and stability of the two orders -/

theorem insDescQ_perm (et : EvTotals) (x : PStmt) :
    ∀ l : List PStmt, (insDescQ et x l).Perm (x :: l)
  | [] => List.Perm.refl _
  | y :: ys => by
    simp only [insDescQ]
    split_ifs with h
    · exact List.Perm.refl _
    · exact (List.Perm.cons y (insDescQ_perm et x ys)).trans (List.Perm.swap x y ys)

theorem msortDesc_perm (et : EvTotals) : ∀ l : List PStmt, (msortDesc et l).Perm l
  | [] => List.Perm.refl _
  | x :: xs => (insDescQ_perm et x (msortDesc et xs)).trans
      (List.Perm.cons x (msortDesc_perm et xs))

theorem insDescQ_sorted (et : EvTotals) (x : PStmt) :
    ∀ l : List PStmt, l.Pairwise (fun a b => memberKey et b ≤ memberKey et a) →
      (insDescQ et x l).Pairwise (fun a b => memberKey et b ≤ memberKey et a)
  | [] => by simp [insDescQ]
  | y :: ys => by
    intro hp
    rcases List.pairwise_cons.mp hp with ⟨hy, hys⟩
    simp only [insDescQ]
    split_ifs with h
    · rw [memberLe_iff] at h
      refine List.pairwise_cons.mpr ⟨?_, hp⟩
      intro z hz
      rcases List.mem_cons.mp hz with rfl | hz2
      · exact h
      · exact le_trans (hy z hz2) h
    · have hlt : memberKey et x < memberKey et y := by
        rw [← not_le]
        intro hc
        exact h ((memberLe_iff et y x).mpr hc)
      refine List.pairwise_cons.mpr ⟨?_, insDescQ_sorted et x ys hys⟩
      intro z hz
      rcases List.mem_cons.mp ((insDescQ_perm et x ys).mem_iff.mp hz) with rfl | hz2
      · exact le_of_lt hlt
      · exact hy z hz2

theorem msortDesc_sorted (et : EvTotals) : ∀ l : List PStmt,
    (msortDesc et l).Pairwise (fun a b => memberKey et b ≤ memberKey et a)
  | [] => by simp [msortDesc]
  | x :: xs => insDescQ_sorted et x (msortDesc et xs) (msortDesc_sorted et xs)

theorem insDescQ_filter (et : EvTotals) (x : PStmt) (q : ℚ) :
    ∀ l : List PStmt, (insDescQ et x l).filter (fun s => decide (memberKey et s = q)) =
      if memberKey et x = q then x :: l.filter (fun s => decide (memberKey et s = q))
      else l.filter (fun s => decide (memberKey et s = q))
  | [] => by
    simp only [insDescQ]
    by_cases h : memberKey et x = q <;> simp [List.filter, h]
  | y :: ys => by
    simp only [insDescQ]
    by_cases hle : memberLe et y x = true
    · rw [if_pos hle]
      by_cases hq : memberKey et x = q <;> simp [List.filter_cons, hq]
    · rw [if_neg hle]
      have hxy : ¬ memberKey et y ≤ memberKey et x := fun hc =>
        hle ((memberLe_iff et y x).mpr hc)
      by_cases hq : memberKey et x = q
      · have hyq : ¬ memberKey et y = q := fun hc => hxy (le_of_eq (by rw [hc, hq]))
        rw [if_pos hq, List.filter_cons, List.filter_cons, insDescQ_filter et x q ys,
          if_pos hq]
        simp [hyq]
      · rw [if_neg hq, List.filter_cons, List.filter_cons, insDescQ_filter et x q ys,
          if_neg hq]

theorem msortDesc_filter (et : EvTotals) (q : ℚ) :
    ∀ l : List PStmt, (msortDesc et l).filter (fun s => decide (memberKey et s = q)) =
      l.filter (fun s => decide (memberKey et s = q))
  | [] => rfl
  | x :: xs => by
    simp only [msortDesc]
    rw [insDescQ_filter et x q (msortDesc et xs), List.filter_cons]
    by_cases hq : memberKey et x = q
    · rw [if_pos hq, msortDesc_filter et q xs]
      simp [hq]
    · rw [if_neg hq, msortDesc_filter et q xs]
      simp [hq]

/-- C4 (amended): the within-group member order is total and stable — the
member sort always succeeds, permutes the members, sorts them descending
by the member key, and keeps exact ties in their original insertion order
(each tie class survives as the same subsequence); the group sort
succeeds whenever the sort keys of the produced groups are pairwise
comparable — but not in general: mixing Conversion statements with
fixed-role statements can make two group keys incomparable, and Python's
sort then raises `TypeError` instead of ordering them (see the
counterexample). -/
theorem claim_C4_orders (et : EvTotals) (l : List PStmt) (q : ℚ) (stmts : List PStmt)
    (hcomp : ∀ g ∈ processRows et (aggregate stmts et),
      ∀ h ∈ processRows et (aggregate stmts et), (cmpSortKey g.1 h.1).isSome) :
    (msortDesc et l).Perm l ∧
    (msortDesc et l).Pairwise (fun a b => memberKey et b ≤ memberKey et a) ∧
    (msortDesc et l).filter (fun s => decide (memberKey et s = q)) =
      l.filter (fun s => decide (memberKey et s = q)) ∧
    ∃ out, groupAndSortStatements stmts et = some out := by
  refine ⟨msortDesc_perm et l, msortDesc_sorted et l, msortDesc_filter et q l, ?_⟩
  have h := psortG_isSome hcomp
  rcases hx : psortG (processRows et (aggregate stmts et)) with _ | out
  · rw [hx] at h
    cases h
  · exact ⟨out, hx⟩

/-- C4 counterexample: a zero-evidence Phosphorylation between X and B
together with a Conversion controlled by X tie on argument weight, and the
comparison of their sort keys (a string against a tuple) is undefined —
the group sort fails (Python `TypeError`), refuting the claim that the
sort always succeeds on well-formed mixed lists. -/
theorem claim_C4_counterexample :
    groupAndSortStatements [exPhosXB, exConvXPR] none = none := by decide

/-- Witness for C4: the theorem applied to a concrete member list and a
single-group statement list. -/
theorem claim_C4_orders_witness :
    (msortDesc none [exDirectAB, exTripleABC]).Perm [exDirectAB, exTripleABC] ∧
    (msortDesc none [exDirectAB, exTripleABC]).Pairwise
      (fun a b => memberKey none b ≤ memberKey none a) ∧
    (msortDesc none [exDirectAB, exTripleABC]).filter
        (fun s => decide (memberKey none s = 7/3)) =
      [exDirectAB, exTripleABC].filter (fun s => decide (memberKey none s = 7/3)) ∧
    ∃ out, groupAndSortStatements [exActAB] none = some out :=
  claim_C4_orders none [exDirectAB, exTripleABC] (7/3) [exActAB] (by decide)

/-! ## Claim C10: statements without evidence always pass -/

/-- C10: a statement whose evidence list is empty is never classified as
all-hypothesis or all-negated: `filter_no_hypothesis` and
`filter_no_negated` both keep it. -/
theorem claim_C10_empty_evidence (stmts : List BStmt) (s : BStmt) (hs : s ∈ stmts)
    (hev : s.evidence = []) :
    s ∈ filterNoHypothesis stmts ∧ s ∈ filterNoNegated stmts := by
  constructor
  · refine List.mem_filter.mpr ⟨hs, ?_⟩
    simp [allHyp, hev]
  · refine List.mem_filter.mpr ⟨hs, ?_⟩
    simp [allNeg, hev]

/-- Witness for C10: a concrete evidence-free statement passes both
filters. -/
theorem claim_C10_empty_evidence_witness :
    exNoEv ∈ filterNoHypothesis [exNoEv] ∧ exNoEv ∈ filterNoNegated [exNoEv] :=
  claim_C10_empty_evidence [exNoEv] exNoEv (by decide) rfl

/-! ## Claim C7: the grounding filter with remove_bound -/

theorem groundedKeep_true_iff (thr : Option ℚ) :
    ∀ l : List (Option CAgent), groundedKeep thr true l =
      l.all (fun a? => match a? with
        | none => true
        | some a => agentIsGrounded thr a.dbRefs)
  | [] => rfl
  | none :: rest => by
    simp only [groundedKeep, List.all_cons]
    rw [groundedKeep_true_iff thr rest]
    rfl
  | some a :: rest => by
    by_cases h : agentIsGrounded thr a.dbRefs = true
    · simp [groundedKeep, h, groundedKeep_true_iff thr rest]
    · simp [groundedKeep, h]

theorem filterMap_if_eq_filter_map {α β : Type} (p : α → Bool) (f : α → β) :
    ∀ l : List α, l.filterMap (fun a => if p a then some (f a) else none) =
      (l.filter p).map f
  | [] => rfl
  | a :: rest => by
    simp only [List.filterMap_cons, List.filter_cons]
    by_cases h : p a
    · rw [if_pos h, if_pos h, List.map_cons, filterMap_if_eq_filter_map p f rest]
    · rw [if_neg h, if_neg h, filterMap_if_eq_filter_map p f rest]

theorem filterGroundedOnly_rb_eq (thr : Option ℚ) (stmts : List BStmt) :
    filterGroundedOnly thr true stmts =
      (stmts.filter (allTopGrounded thr)).map (mapStmtAgents (pruneAgentBCs thr)) := by
  unfold filterGroundedOnly
  have h1 : ∀ s : BStmt,
      (if groundedKeep thr true (agentListB s) then
        some (if true then mapStmtAgents (pruneAgentBCs thr) s else s) else none) =
      (if allTopGrounded thr s then some (mapStmtAgents (pruneAgentBCs thr) s) else none) := by
    intro s
    rw [groundedKeep_true_iff]
    rfl
  calc stmts.filterMap (fun s => if groundedKeep thr true (agentListB s) then
        some (if true then mapStmtAgents (pruneAgentBCs thr) s else s) else none)
      = stmts.filterMap (fun s =>
          if allTopGrounded thr s then some (mapStmtAgents (pruneAgentBCs thr) s) else none) := by
        apply List.filterMap_congr
        intro s _
        exact h1 s
    _ = (stmts.filter (allTopGrounded thr)).map (mapStmtAgents (pruneAgentBCs thr)) :=
        filterMap_if_eq_filter_map _ _ stmts

/-- C7 (amended): `filter_grounded_only` with `remove_bound=True` equals
filtering to the statements all of whose top-level agents are grounded,
then pruning each kept statement's failing bound partners — so the
statement count is preserved exactly when every statement's top-level
agents pass, but a statement with an ungrounded top-level agent is still
dropped (see the counterexample). -/
theorem claim_C7_remove_bound (thr : Option ℚ) (stmts : List BStmt) :
    filterGroundedOnly thr true stmts =
      (stmts.filter (allTopGrounded thr)).map (mapStmtAgents (pruneAgentBCs thr)) :=
  filterGroundedOnly_rb_eq thr stmts

/-- C7 counterexample: a single statement with one ungrounded agent is
dropped by `filter_grounded_only` even with `remove_bound=True` — the
top-level statement count is not preserved. -/
theorem claim_C7_counterexample :
    ¬ (filterGroundedOnly none true [exUngrounded]).length = [exUngrounded].length := by
  decide

/-! ## Claim C9: unrecognized policy values -/

/-- C9: with an unrecognized policy, `filter_gene_list` and
`filter_concept_names` log an error and return the input unchanged, but
`filter_by_db_refs` returns no value at all (Python `None`) — contradicting
its own documented contract of always returning a statement list, and the
spec's requirement that a policy filter either return the input unchanged
or fail with a configuration error. -/
theorem claim_C9_policy_handling :
    filterByDbRefs "HGNC" ["1100"] "bogus" false false [exPlainA] = none ∧
    filterConceptNames ["A"] "bogus" false [exPlainA] = [exPlainA] ∧
    filterGeneList ["A"] "bogus" false false [exPlainA] = [exPlainA] := by
  decide

/-! ## Claim C8: the filters mutate their input statements -/

theorem filterBeliefFull_spec (c : ℚ) : ∀ l : List BStmt,
    (filterBeliefFull c l).1 =
      (l.filter (fun s => !(decide (s.belief < c)))).map (beliefPrune c) ∧
    (filterBeliefFull c l).2 =
      l.map (fun s => if s.belief < c then s else beliefPrune c s)
  | [] => ⟨rfl, rfl⟩
  | s :: rest => by
    have ih := filterBeliefFull_spec c rest
    simp only [filterBeliefFull, List.filter_cons, List.map_cons]
    by_cases h : s.belief < c
    · simp [h, ih.1, ih.2]
    · simp [h, ih.1, ih.2]

/-- C8 (amended): the transformations are not pure in-place: after
`filter_belief`, every kept input statement has had its supports and
supported-by lists pruned in place (dropped statements stay untouched) and
the returned list is exactly those pruned statements; and
`filter_gene_list` with `remove_bound=True` prunes the bound conditions of
every input statement — including the statements it does not return —
whatever the policy decides. -/
theorem claim_C8_mutation (c : ℚ) (l : List BStmt) (gl : List String) (policy : String)
    (inv : Bool) (l2 : List BStmt) :
    (filterBeliefFull c l).2 =
      l.map (fun s => if s.belief < c then s else beliefPrune c s) ∧
    (filterBeliefFull c l).1 =
      (l.filter (fun s => !(decide (s.belief < c)))).map (beliefPrune c) ∧
    (filterGeneListFull gl policy inv true l2).2 =
      l2.map (mapStmtAgents (pruneGL gl inv)) := by
  refine ⟨(filterBeliefFull_spec c l).2, (filterBeliefFull_spec c l).1, ?_⟩
  unfold filterGeneListFull
  split_ifs <;> simp_all

/-- C8 counterexample: one high-belief statement supported by a
low-belief statement — after `filter_belief` at cutoff 1/2 the input
statement's supports list has been emptied in place, so the input is not
left unchanged. -/
theorem claim_C8_counterexample :
    (filterBeliefFull (mkRat 1 2) [exHighBelief]).2 ≠ [exHighBelief] := by decide

/-! ## Claim C6: idempotence of the filters -/

theorem filter_idem {α : Type} (p : α → Bool) (l : List α) :
    (l.filter p).filter p = l.filter p := by
  rw [List.filter_filter]
  exact List.filter_congr (fun a _ => Bool.and_self _)

theorem pruneAgentBCs_idem (thr : Option ℚ) (a : CAgent) :
    pruneAgentBCs thr (pruneAgentBCs thr a) = pruneAgentBCs thr a := by
  cases a
  simp only [pruneAgentBCs]
  rw [filter_idem]

theorem pruneGL_idem (gl : List String) (inv : Bool) (a : CAgent) :
    pruneGL gl inv (pruneGL gl inv a) = pruneGL gl inv a := by
  cases a
  simp only [pruneGL]
  rw [filter_idem]

theorem mapStmtAgents_comp (f g : CAgent → CAgent) (s : BStmt) :
    mapStmtAgents f (mapStmtAgents g s) = mapStmtAgents (fun a => f (g a)) s := by
  obtain ⟨content, ev, b, sup, supBy⟩ := s
  cases content <;>
    simp [mapStmtAgents, Option.map_map, List.map_map, Function.comp_def]

theorem agentListB_map (f : CAgent → CAgent) (s : BStmt) :
    agentListB (mapStmtAgents f s) = (agentListB s).map (Option.map f) := by
  obtain ⟨content, ev, b, sup, supBy⟩ := s
  cases content <;> simp [agentListB, mapStmtAgents]

theorem allTop_prune (thr : Option ℚ) (s : BStmt) :
    allTopGrounded thr (mapStmtAgents (pruneAgentBCs thr) s) = allTopGrounded thr s := by
  unfold allTopGrounded
  rw [agentListB_map, List.all_map]
  congr 1
  funext a?
  cases a? <;> rfl

theorem flatMap_map_opt {α β : Type} (f : α → α) (g : Option α → List β) :
    ∀ l : List (Option α),
      (l.map (Option.map f)).flatMap g = l.flatMap (fun a? => g (Option.map f a?))
  | [] => rfl
  | x :: rest => by
    simp only [List.map_cons, List.flatMap_cons]
    rw [flatMap_map_opt f g rest]

theorem glNames_prune (gl : List String) (inv : Bool) (s : BStmt) :
    glNames false (mapStmtAgents (pruneGL gl inv) s) = glNames false s := by
  unfold glNames
  rw [agentListB_map, flatMap_map_opt]
  congr 1
  funext a?
  cases a? <;> rfl

theorem beliefPrune_idem (c : ℚ) (s : BStmt) :
    beliefPrune c (beliefPrune c s) = beliefPrune c s := by
  obtain ⟨content, ev, b, sup, supBy⟩ := s
  simp only [beliefPrune]
  rw [filter_idem, filter_idem]

theorem filterGroundedOnly_noRb_eq (thr : Option ℚ) (stmts : List BStmt) :
    filterGroundedOnly thr false stmts =
      stmts.filter (fun s => groundedKeep thr false (agentListB s)) := by
  unfold filterGroundedOnly
  have h := filterMap_if_eq_filter_map
    (fun s : BStmt => groundedKeep thr false (agentListB s)) id stmts
  rw [List.map_id] at h
  exact h

/-- C6 (amended): applying a per-statement filter twice with the same
configuration equals applying it once — proved here for
`filter_no_hypothesis`, `filter_no_negated`, `filter_concept_names`,
`filter_grounded_only` (with and without `remove_bound`), `filter_belief`
and `filter_gene_list` in every configuration — but NOT for the
inconsequential-qualifier filters: `filter_inconsequential_acts` (like
`filter_inconsequential_mods`, see the counterexample) rebuilds its
corpus-wide observed-qualifier index from the already-filtered input, and
a second application can drop further statements. -/
theorem claim_C6_idempotence :
    (∀ l, filterNoHypothesis (filterNoHypothesis l) = filterNoHypothesis l) ∧
    (∀ l, filterNoNegated (filterNoNegated l) = filterNoNegated l) ∧
    (∀ names policy inv l, filterConceptNames names policy inv
      (filterConceptNames names policy inv l) = filterConceptNames names policy inv l) ∧
    (∀ thr rb l, filterGroundedOnly thr rb (filterGroundedOnly thr rb l) =
      filterGroundedOnly thr rb l) ∧
    (∀ c l, filterBelief c (filterBelief c l) = filterBelief c l) ∧
    (∀ gl policy inv rb l, filterGeneList gl policy inv rb
      (filterGeneList gl policy inv rb l) = filterGeneList gl policy inv rb l) ∧
    filterInconsequentialActs [] (filterInconsequentialActs [] [exA1, exA2]) ≠
      filterInconsequentialActs [] [exA1, exA2] := by
  refine ⟨?_, ?_, ?_, ?_, ?_, ?_, by decide⟩
  · intro l
    exact filter_idem _ l
  · intro l
    exact filter_idem _ l
  · intro names policy inv l
    unfold filterConceptNames
    split_ifs <;> first | exact filter_idem _ l | rfl
  · intro thr rb l
    cases rb
    · rw [filterGroundedOnly_noRb_eq, filterGroundedOnly_noRb_eq, filter_idem]
    · rw [filterGroundedOnly_rb_eq, filterGroundedOnly_rb_eq, List.filter_map]
      have h1 : (allTopGrounded thr ∘ mapStmtAgents (pruneAgentBCs thr)) = allTopGrounded thr := by
        funext s
        exact allTop_prune thr s
      rw [h1, filter_idem, List.map_map]
      have h2 : (mapStmtAgents (pruneAgentBCs thr) ∘ mapStmtAgents (pruneAgentBCs thr)) =
          mapStmtAgents (pruneAgentBCs thr) := by
        funext s
        rw [Function.comp_apply, mapStmtAgents_comp]
        congr 1
        funext a
        exact pruneAgentBCs_idem thr a
      rw [h2]
  · intro c l
    unfold filterBelief
    rw [(filterBeliefFull_spec c l).1,
      (filterBeliefFull_spec c ((l.filter (fun s => !(decide (s.belief < c)))).map (beliefPrune c))).1,
      List.filter_map]
    have h1 : ((fun s : BStmt => !(decide (s.belief < c))) ∘ beliefPrune c) =
        (fun s : BStmt => !(decide (s.belief < c))) := by
      funext s
      rfl
    rw [h1, filter_idem, List.map_map]
    have h2 : (beliefPrune c ∘ beliefPrune c) = beliefPrune c := by
      funext s
      exact beliefPrune_idem c s
    rw [h2]
  · intro gl policy inv rb l
    unfold filterGeneList filterGeneListFull
    cases rb
    · simp only [Bool.false_eq_true, if_false]
      split_ifs <;> first | exact filter_idem _ _ | rfl
    · simp only [if_true]
      have hpred : ∀ p : BStmt → Bool, (∀ s, p (mapStmtAgents (pruneGL gl inv) s) = p s) →
          List.filter p (List.map (mapStmtAgents (pruneGL gl inv))
            (List.filter p (List.map (mapStmtAgents (pruneGL gl inv)) l))) =
          List.filter p (List.map (mapStmtAgents (pruneGL gl inv)) l) := by
        intro p hp
        have hc : (p ∘ mapStmtAgents (pruneGL gl inv)) = p := funext hp
        have hff : (mapStmtAgents (pruneGL gl inv) ∘ mapStmtAgents (pruneGL gl inv)) =
            mapStmtAgents (pruneGL gl inv) := by
          funext s
          rw [Function.comp_apply, mapStmtAgents_comp]
          congr 1
          funext a
          exact pruneGL_idem gl inv a
        rw [List.filter_map, hc, filter_idem, List.filter_map, hc, List.map_map, hff]
      split_ifs
      · exact hpred _ (fun s => by
          simp only [Bool.not_true]
          rw [glNames_prune])
      · exact hpred _ (fun s => by
          simp only [Bool.not_true]
          rw [glNames_prune])
      · rw [List.map_map]
        have h2 : (mapStmtAgents (pruneGL gl inv) ∘ mapStmtAgents (pruneGL gl inv)) =
            mapStmtAgents (pruneGL gl inv) := by
          funext s
          rw [Function.comp_apply, mapStmtAgents_comp]
          congr 1
          funext a
          exact pruneGL_idem gl inv a
        rw [h2]

/-- C6 counterexample: a phosphorylation of B at S222 (kept on the first
pass because another statement's agent B carries that modification) loses
its justification once that other statement is dropped — the second
application of `filter_inconsequential_mods` removes it, so the filter is
not idempotent. -/
theorem claim_C6_counterexample :
    filterInconsequentialMods [] (filterInconsequentialMods [] [exM1, exM2]) ≠
      filterInconsequentialMods [] [exM1, exM2] := by
  decide
